import Mathlib

set_option maxRecDepth 100000

/-!
Verification development for the lottery ticket scoring-and-generation engine
(`src/predictors/israeli_lottery_predictor.py`, with the Mega Millions variant a
near-duplicate parameterized by different range/count constants).  The Python
code is shallowly embedded: floating-point weights are modelled as exact
rationals, the process-wide random source (`random` / `np.random`) is modelled
as an explicit stream of values threaded through every sampling call, and every
Python statement that can raise (`ZeroDivisionError` on `w / total`, `KeyError`
on a missing dict key, `IndexError` on `random.choice([])`) is modelled as an
`Option` failure.
-/

/-- Exact rational weight value `n / (d + 1)`.  The denominator is stored as
`d + 1` so that it is positive by construction and no gcd normalization is
needed; all arithmetic and comparisons are integer cross-multiplications, which
lets concrete runs of the embedded engine be evaluated by the kernel.  This
models the (finite, non-NaN) float values flowing through the Python engine. -/
structure Wq where
  n : ℤ
  d : ℕ
deriving DecidableEq

/-- Value of a `Wq` as a rational number. -/
def Wq.toRat (a : Wq) : ℚ := (a.n : ℚ) / ((a.d : ℚ) + 1)

/-- The zero weight. -/
def Wq.zero : Wq := ⟨0, 0⟩

/-- The unit weight. -/
def Wq.one : Wq := ⟨1, 0⟩

/-- Embedding of a natural number count as a weight. -/
def Wq.ofNat (k : ℕ) : Wq := ⟨(k : ℤ), 0⟩

/-- Exact addition: `a/(da+1) + b/(db+1)`. -/
def Wq.add (a b : Wq) : Wq :=
  ⟨a.n * ((b.d : ℤ) + 1) + b.n * ((a.d : ℤ) + 1), a.d * b.d + a.d + b.d⟩

/-- Exact multiplication. -/
def Wq.mul (a b : Wq) : Wq := ⟨a.n * b.n, a.d * b.d + a.d + b.d⟩

/-- Value-level `≤`, by cross-multiplication with the positive denominators. -/
def Wq.ble (a b : Wq) : Bool := decide (a.n * ((b.d : ℤ) + 1) ≤ b.n * ((a.d : ℤ) + 1))

/-- Value-level `<`, by cross-multiplication with the positive denominators. -/
def Wq.blt (a b : Wq) : Bool := decide (a.n * ((b.d : ℤ) + 1) < b.n * ((a.d : ℤ) + 1))

/-- Value-level equality test (`Wq` representations are not unique). -/
def Wq.veq (a b : Wq) : Bool := decide (a.n * ((b.d : ℤ) + 1) = b.n * ((a.d : ℤ) + 1))

/-- Division, modelling Python `a / b`: fails (`ZeroDivisionError`) exactly when
the divisor has value zero. -/
def Wq.div (a b : Wq) : Option Wq :=
  if b.n = 0 then none
  else some ⟨(if b.n < 0 then -1 else 1) * a.n * ((b.d : ℤ) + 1), (a.d + 1) * b.n.natAbs - 1⟩

/-- Fractional part, used to map a raw random-stream value into `[0, 1)` the way
`random.random()` and the inverse-CDF view of `np.random.choice` consume
uniform variates. -/
def Wq.fract (q : Wq) : Wq := ⟨q.n.emod ((q.d : ℤ) + 1), q.d⟩

/-- Sum of a list of weights (Python `sum(weights)`). -/
def Wq.lsum : List Wq → Wq
  | [] => Wq.zero
  | x :: xs => Wq.add x (Wq.lsum xs)

/-- Negation of a weight. -/
def Wq.neg (a : Wq) : Wq := ⟨-a.n, a.d⟩

/-- Subtraction of weights. -/
def Wq.sub (a b : Wq) : Wq := Wq.add a (Wq.neg b)

/-- The regular-number pool `[REGULAR_NUMBERS_MIN, REGULAR_NUMBERS_MAX] = [1, 37]`,
in the iteration order of `range(1, 38)`. -/
def regularRange : List ℕ := (List.range 37).map (· + 1)

/-- The special-number pool `[SPECIAL_NUMBERS_MIN, SPECIAL_NUMBERS_MAX] = [1, 7]`. -/
def specialRange : List ℕ := (List.range 7).map (· + 1)

/-- One historical draw record: the six regular-number columns and the special
column of a row of the cleaned CSV (the date only orders the rows and plays no
further role in the engine). -/
structure DrawRecord where
  regulars : List ℕ
  special : ℕ
deriving DecidableEq

/-- A generated ticket `(regular_numbers_list, special_number)`. -/
abbrev Ticket := List ℕ × ℕ

/-- The engine's randomness source: the stream of values produced by the
process-wide `random` / `np.random` state, consumed one value per primitive
call. -/
abbrev RSrc := ℕ → Wq

/-- Stream after consuming one value. -/
def tl (s : RSrc) : RSrc := fun k => s (k + 1)

/-- A constant stream (one particular random-generator behaviour). -/
def constSrc (c : Wq) : RSrc := fun _ => c

/-- Index into a list of length `len` derived from one uniform variate: the
value is mapped into `[0,1)` and scaled, so the result is `< len` whenever
`len > 0`.  This models `random.choice` / `random.sample` index selection. -/
def unitIdx (q : Wq) (len : ℕ) : ℕ := ((q.n.emod ((q.d : ℤ) + 1)).toNat * len) / (q.d + 1)

/-- Model of `random.choice(items)`: uniform pick, failing (Python `IndexError`)
exactly on an empty list. -/
def uniformPick (items : List α) (q : Wq) : Option α := items.get? (unitIdx q items.length)

/-- First index whose cumulative weight strictly exceeds the target: the
inverse-CDF selection underlying a weighted `np.random.choice(..., p=ws)`. -/
def weightedIdx : List Wq → Wq → ℕ
  | [], _ => 0
  | w :: ws, t => if Wq.blt t w = true then 0 else weightedIdx ws (Wq.sub t w) + 1

/-- Weighted draw from `items` with weight list `ws`, consuming one stream
value mapped into `[0,1)` and scaled by the total weight (equivalently: the
draw `np.random.choice(items, p=[w/total for w in ws])` performs). -/
def weightedPick (items : List α) (ws : List Wq) (q : Wq) : Option α :=
  items.get? (weightedIdx ws (Wq.mul (Wq.fract q) (Wq.lsum ws)))

/-- Model of the two-step Python idiom `ws = [w/total for w in ws];
np.random.choice(items, p=ws)`: the division fails (`ZeroDivisionError`)
exactly when the total weight is zero, else the weighted draw is made. -/
def npChoiceNorm (items : List α) (ws : List Wq) (q : Wq) : Option α :=
  if (Wq.lsum ws).n = 0 then none else weightedPick items ws q

/-- Model of `random.sample(items, k)`: `k` uniform picks without replacement. -/
def sampleK [DecidableEq α] : List α → ℕ → RSrc → Option (List α) × RSrc
  | _, 0, s => (some [], s)
  | items, k + 1, s =>
    match uniformPick items (s 0) with
    | none => (none, tl s)
    | some x =>
      match sampleK (items.erase x) k (tl s) with
      | (none, s2) => (none, s2)
      | (some xs, s2) => (some (x :: xs), s2)

/-- Model of `np.random.choice(items, size=k, replace=False, p=normalized ws)`:
`k` successive weighted draws without replacement, failing if the remaining
total weight is zero. -/
def wSampleK [DecidableEq α] : List (α × Wq) → ℕ → RSrc → Option (List α) × RSrc
  | _, 0, s => (some [], s)
  | pairs, k + 1, s =>
    if (Wq.lsum (pairs.map Prod.snd)).n = 0 then (none, s)
    else
      match weightedPick pairs (pairs.map Prod.snd) (s 0) with
      | none => (none, tl s)
      | some p =>
        match wSampleK (pairs.erase p) k (tl s) with
        | (none, s2) => (none, s2)
        | (some xs, s2) => (some (p.1 :: xs), s2)

/-- All regular numbers of the window, across the six columns of each record. -/
def regularPool (records : List DrawRecord) : List ℕ :=
  (records.map DrawRecord.regulars).join

/-- Occurrences of `x` across all six regular columns of the window (the
`Counter` of `_analyze_regular_numbers`). -/
def regularCount (records : List DrawRecord) (x : ℕ) : ℕ :=
  (regularPool records).count x

/-- Builds the score-table entries in pool order, propagating a division
failure (the Python loop raises out of `_analyze_*_numbers`). -/
def mapO (f : ℕ → Option (ℕ × Wq)) : List ℕ → Option (List (ℕ × Wq))
  | [] => some []
  | x :: xs =>
    match f x with
    | none => none
    | some y =>
      match mapO f xs with
      | none => none
      | some ys => some (y :: ys)

/-- Python `max(regular_counts.values()) if regular_counts else 1`: the
`Counter` is empty exactly when the window contributes no numbers at all. -/
def regularMaxFreq (records : List DrawRecord) : ℕ :=
  if regularPool records = [] then 1
  else ((regularPool records).map (fun x => (regularPool records).count x)).foldr max 0

/-- Python `max(l)` evaluated left to right (first maximal element kept).
The `[]` case is unreachable in the embedded code paths. -/
def maxFold (acc : Wq) : List Wq → Wq
  | [] => acc
  | y :: ys => maxFold (if Wq.blt acc y = true then y else acc) ys

/-- Maximum of a list of weights, Python `max`. -/
def listMaxW : List Wq → Wq
  | [] => Wq.zero
  | x :: xs => maxFold x xs

/-- Recency weight of regular number `x`: each appearance in record `i`
contributes `w i` (the code adds `exp(-0.02 * i)` once per regular column
holding `x`). -/
def recencyWeight (w : ℕ → Wq) (records : List DrawRecord) (x : ℕ) : Wq :=
  Wq.lsum (records.enum.map (fun p => Wq.mul (w p.1) (Wq.ofNat (p.2.regulars.count x))))

/-- Embeds `_analyze_regular_numbers`: frequency and recency per number in the
pool, each divided by its maximum, blended `0.6 / 0.4`.  The frequency maximum
falls back to `1` when the `Counter` is empty, but the recency maximum is taken
over the always-nonempty pre-initialized dict, so a zero maximum flows into the
division and raises (`none`).  Records are assumed in range per the DrawRecord
data-model invariant (an out-of-range column would be a `KeyError` upstream). -/
def regularEntry (w : ℕ → Wq) (records : List DrawRecord) (x : ℕ) : Option (ℕ × Wq) :=
  match Wq.div (Wq.ofNat (regularCount records x)) (Wq.ofNat (regularMaxFreq records)) with
  | none => none
  | some nf =>
    match Wq.div (recencyWeight w records x)
        (listMaxW (regularRange.map (recencyWeight w records))) with
    | none => none
    | some nr => some (x, Wq.add (Wq.mul ⟨6, 9⟩ nf) (Wq.mul ⟨4, 9⟩ nr))

/-- Embeds `_analyze_regular_numbers` as the fold of `regularEntry` over the
regular range. -/
def analyzeRegularNumbers (w : ℕ → Wq) (records : List DrawRecord) :
    Option (List (ℕ × Wq)) :=
  mapO (regularEntry w records) regularRange

/-- The special numbers of the window. -/
def specialPool (records : List DrawRecord) : List ℕ :=
  records.map DrawRecord.special

/-- Occurrences of `x` in the special column of the window. -/
def specialCount (records : List DrawRecord) (x : ℕ) : ℕ :=
  (specialPool records).count x

/-- Python `max(special_counts.values()) if special_counts else 1`. -/
def specialMaxFreq (records : List DrawRecord) : ℕ :=
  if specialPool records = [] then 1
  else ((specialPool records).map (fun x => (specialPool records).count x)).foldr max 0

/-- Recency weight of special number `x` under decay curve `w`. -/
def specialRecencyWeight (w : ℕ → Wq) (records : List DrawRecord) (x : ℕ) : Wq :=
  Wq.lsum (records.enum.map (fun p =>
    Wq.mul (w p.1) (Wq.ofNat (if p.2.special = x then 1 else 0))))

/-- Embeds `_analyze_special_numbers`; same shape as the regular analysis over
the special pool, with its own decay curve. -/
def specialEntry (w : ℕ → Wq) (records : List DrawRecord) (x : ℕ) : Option (ℕ × Wq) :=
  match Wq.div (Wq.ofNat (specialCount records x)) (Wq.ofNat (specialMaxFreq records)) with
  | none => none
  | some nf =>
    match Wq.div (specialRecencyWeight w records x)
        (listMaxW (specialRange.map (specialRecencyWeight w records))) with
    | none => none
    | some nr => some (x, Wq.add (Wq.mul ⟨6, 9⟩ nf) (Wq.mul ⟨4, 9⟩ nr))

/-- Embeds `_analyze_special_numbers` as the fold of `specialEntry` over the
special range. -/
def analyzeSpecialNumbers (w : ℕ → Wq) (records : List DrawRecord) :
    Option (List (ℕ × Wq)) :=
  mapO (specialEntry w records) specialRange

/-- All unordered pairs `(i, j)`, `i < j`, of regular numbers, in the
initialization order of `_analyze_pair_frequency`. -/
def allPairs : List (ℕ × ℕ) :=
  regularRange.bind (fun i => (regularRange.filter (fun j => i < j)).map (fun j => (i, j)))

/-- The zero-initialized pair-frequency dict. -/
def initPairTable : List ((ℕ × ℕ) × ℕ) := allPairs.map (fun p => (p, 0))

/-- The entry update underlying `pair_frequency[key] += 1`. -/
def bumpUpd (k : ℕ × ℕ) (e : (ℕ × ℕ) × ℕ) : (ℕ × ℕ) × ℕ :=
  if e.1 = k then (e.1, e.2 + 1) else e

/-- Python `self.pair_frequency[key] += 1`: `KeyError` (`none`) when the key is
absent, which happens only for records with duplicate or out-of-range numbers. -/
def bumpPair (k : ℕ × ℕ) (t : List ((ℕ × ℕ) × ℕ)) : Option (List ((ℕ × ℕ) × ℕ)) :=
  if t.any (fun e => decide (e.1 = k)) then some (t.map (bumpUpd k)) else none

/-- `itertools.combinations(numbers, 2)` in its order of emission. -/
def combos2 : List ℕ → List (ℕ × ℕ)
  | [] => []
  | x :: xs => (xs.map (fun y => (x, y))) ++ combos2 xs

/-- Pair-key normalization `if i > j: i, j = j, i`. -/
def normPair (p : ℕ × ℕ) : ℕ × ℕ := if p.2 < p.1 then (p.2, p.1) else p

/-- One record's contribution to the pair table: every 2-combination of its
regular numbers, normalized, incremented once, in emission order. -/
def bumpAll : List (ℕ × ℕ) → List ((ℕ × ℕ) × ℕ) → Option (List ((ℕ × ℕ) × ℕ))
  | [], t => some t
  | p :: ps, t =>
    match bumpPair (normPair p) t with
    | none => none
    | some t2 => bumpAll ps t2

/-- Folds the records of the window into the pair table. -/
def pairFold : List DrawRecord → List ((ℕ × ℕ) × ℕ) → Option (List ((ℕ × ℕ) × ℕ))
  | [], t => some t
  | r :: rs, t =>
    match bumpAll (combos2 r.regulars) t with
    | none => none
    | some t2 => pairFold rs t2

/-- Embeds `_analyze_pair_frequency` over the window. -/
def analyzePairFrequency (records : List DrawRecord) : Option (List ((ℕ × ℕ) × ℕ)) :=
  pairFold records initPairTable

/-- The three tables a predictor instance holds when `generate_tickets` runs. -/
structure PredictorState where
  regularScores : List (ℕ × Wq)
  specialScores : List (ℕ × Wq)
  pairFrequency : List ((ℕ × ℕ) × ℕ)
deriving DecidableEq

/-- Embeds `_analyze_data` on the lookback window: builds the three tables.
`wr` / `ws` are the regular and special recency decay curves
`i ↦ exp(-0.02 i)` and `i ↦ exp(-0.03 i)`, abstracted as weight streams
(`exp` is transcendental; every theorem needing it assumes positivity, which
the exponential satisfies). -/
def buildState (wr ws : ℕ → Wq) (records : List DrawRecord) : Option PredictorState :=
  match analyzeRegularNumbers wr records with
  | none => none
  | some rs =>
    match analyzeSpecialNumbers ws records with
    | none => none
    | some ss =>
      match analyzePairFrequency records with
      | none => none
      | some pf => some ⟨rs, ss, pf⟩

/-- Stable insertion of `x` into `l`: `x` goes after every element `y` with
`keep y x = true` ("`y` stays before `x`").  Used to model Python's stable
`sorted`, which the kernel can evaluate (unlike a well-founded merge sort). -/
def insSorted (keep : α → α → Bool) (x : α) : List α → List α
  | [] => [x]
  | y :: ys => if keep y x then y :: insSorted keep x ys else x :: y :: ys

/-- Stable sort modelling Python `sorted(l)` under the before-or-equal
relation `keep` (for ascending order `keep a b = a ≤ b`; for a descending sort
by score `keep a b = (b.score ≤ a.score)`, so ties keep first-seen order). -/
def stableSort (keep : α → α → Bool) (l : List α) : List α :=
  l.foldl (fun acc x => insSorted keep x acc) []

/-- Python `set.add`: insert `x` only when absent.  Generated-number sets are
modelled as lists built exclusively through this, so they are duplicate-free;
iteration order is never observed (the sets are sorted before use). -/
def addNew (x : ℕ) (l : List ℕ) : List ℕ := if x ∈ l then l else x :: l

/-- Dict lookup `tbl[k]` mapped over score tables (at every embedded call site
the key is present, so the default is never reached for reachable states). -/
def scoreOf (tbl : List (ℕ × Wq)) (k : ℕ) : Wq :=
  ((tbl.find? (fun p => decide (p.1 = k))).map Prod.snd).getD Wq.zero

/-- Dict lookup with default, Python `tbl.get(k, dflt)`. -/
def scoreOfD (tbl : List (ℕ × Wq)) (k : ℕ) (dflt : Wq) : Wq :=
  ((tbl.find? (fun p => decide (p.1 = k))).map Prod.snd).getD dflt

/-- Python `sorted(self.regular_scores.items(), key=lambda x: x[1],
reverse=True)`: stable descending sort by score. -/
def topRegular (st : PredictorState) : List (ℕ × Wq) :=
  stableSort (fun a b => Wq.ble b.2 a.2) st.regularScores

/-- Embeds `_select_special_number`: weights are the special scores over the
full special range, `total = sum(weights)`, then `w / total` (an unguarded
division: a zero total raises, there is no uniform fallback) and one weighted
draw. -/
def selectSpecialNumber (st : PredictorState) (s : RSrc) : Option ℕ × RSrc :=
  (npChoiceNorm specialRange (specialRange.map (scoreOf st.specialScores)) (s 0), tl s)

/-- Runs a one-ticket generator `k` times, collecting the tickets in order. -/
def repTickets (gen : RSrc → Option Ticket × RSrc) : ℕ → RSrc → Option (List Ticket) × RSrc
  | 0, s => (some [], s)
  | k + 1, s =>
    match gen s with
    | (none, s1) => (none, s1)
    | (some t, s1) =>
      match repTickets gen k s1 with
      | (none, s2) => (none, s2)
      | (some ts, s2) => (some (t :: ts), s2)

/-- First phase of a core-strategy ticket: three score-weighted picks without
replacement from the core pool, with a uniform `random.choice` fallback when
the total weight is not positive; an empty pool skips an iteration. -/
def corePick3 (st : PredictorState) : ℕ → List ℕ → List ℕ → RSrc →
    Option (List ℕ × List ℕ) × RSrc
  | 0, picked, remaining, s => (some (picked, remaining), s)
  | k + 1, picked, remaining, s =>
    if remaining = [] then corePick3 st k picked remaining s
    else
      let ws := remaining.map (scoreOf st.regularScores)
      match (if Wq.blt Wq.zero (Wq.lsum ws) = true then weightedPick remaining ws (s 0)
             else uniformPick remaining (s 0)) with
      | none => (none, tl s)
      | some c => corePick3 st k (picked ++ [c]) (remaining.erase c) (tl s)

/-- Jittered weights `score * (0.7 + 0.3 * random.random())`, one fresh uniform
variate per remaining number, as the comprehension consumes them. -/
def jitterWeights (st : PredictorState) : List ℕ → RSrc → List (ℕ × Wq) × RSrc
  | [], s => ([], s)
  | x :: xs, s =>
    let w := Wq.mul (scoreOf st.regularScores x)
      (Wq.add ⟨7, 9⟩ (Wq.mul ⟨3, 9⟩ (Wq.fract (s 0))))
    match jitterWeights st xs (tl s) with
    | (rest, s2) => ((x, w) :: rest, s2)

/-- Second phase of a core-strategy ticket: jittered-weight sample of
`min(3, len(remaining))` more numbers when the jittered total is positive. -/
def coreTicketPhase2 (st : PredictorState) (picked remaining : List ℕ) (s : RSrc) :
    Option (List ℕ) × RSrc :=
  if remaining = [] then (some picked, s)
  else
    match jitterWeights st remaining s with
    | (jw, s1) =>
      if Wq.blt Wq.zero (Wq.lsum (jw.map Prod.snd)) = true then
        match wSampleK jw (min 3 remaining.length) s1 with
        | (none, s2) => (none, s2)
        | (some ext, s2) => (some (picked ++ ext), s2)
      else (some picked, s1)

/-- The `while len(ticket_numbers) < 6` top-up of the core strategy: uniform
picks from the full range minus the numbers already on the ticket.  Each pick
appends a fresh number, so six iterations of fuel always suffice (proved where
used). -/
def fillUniform : ℕ → List ℕ → RSrc → Option (List ℕ) × RSrc
  | fuel, t, s =>
    if t.length < 6 then
      match fuel with
      | 0 => (none, s)
      | k + 1 =>
        match uniformPick (regularRange.filter (fun x => decide (x ∉ t))) (s 0) with
        | none => (none, tl s)
        | some c => fillUniform k (t ++ [c]) (tl s)
    else (some t, s)

/-- One ticket of `_generate_core_tickets`. -/
def coreTicket (st : PredictorState) (coreSet : List ℕ) (s : RSrc) : Option Ticket × RSrc :=
  match corePick3 st 3 [] coreSet s with
  | (none, s1) => (none, s1)
  | (some (picked, remaining), s1) =>
    match coreTicketPhase2 st picked remaining s1 with
    | (none, s2) => (none, s2)
    | (some t6, s2) =>
      match fillUniform 6 t6 s2 with
      | (none, s3) => (none, s3)
      | (some full, s3) =>
        match selectSpecialNumber st s3 with
        | (none, s4) => (none, s4)
        | (some sp, s4) => (some (stableSort (fun a b => decide (a ≤ b)) full, sp), s4)

/-- One ticket of `_generate_tiered_tickets`: 3 from the top tier, 2 from the
middle, 1 from the bottom, uniform within each tier. -/
def tieredTicket (st : PredictorState) (tier1 tier2 tier3 : List ℕ) (s : RSrc) :
    Option Ticket × RSrc :=
  match sampleK tier1 3 s with
  | (none, s1) => (none, s1)
  | (some a, s1) =>
    match sampleK tier2 2 s1 with
    | (none, s2) => (none, s2)
    | (some b, s2) =>
      match uniformPick tier3 (s2 0) with
      | none => (none, tl s2)
      | some c =>
        match selectSpecialNumber st (tl s2) with
        | (none, s3) => (none, s3)
        | (some sp, s3) =>
          (some (stableSort (fun x y => decide (x ≤ y)) ((a ++ b) ++ [c]), sp), s3)

/-- The `while len(ticket_numbers) < 6` fill of the pair strategy: repeatedly
take the first `top_regular` number not already in the set; `break` when no
candidate remains.  Deterministic; fuel-bounded in the embedding only. -/
def pairFill (tops : List ℕ) : ℕ → List ℕ → Option (List ℕ)
  | fuel, acc =>
    if acc.length < 6 then
      match fuel with
      | 0 => none
      | k + 1 =>
        match tops.filter (fun x => decide (x ∉ acc)) with
        | [] => some acc
        | c :: _ => pairFill tops k (addNew c acc)
    else some acc

/-- One ticket of `_generate_pair_based_tickets`: sample three of the top
fifteen pairs, union their endpoints, fill from the ranked list, then
`sorted(...)[:6]`. -/
def pairTicket (st : PredictorState) (topPairs15 : List ((ℕ × ℕ) × ℕ)) (tops : List ℕ)
    (s : RSrc) : Option Ticket × RSrc :=
  match sampleK topPairs15 3 s with
  | (none, s1) => (none, s1)
  | (some ps, s1) =>
    match pairFill tops 6 (ps.foldl (fun acc e => addNew e.1.2 (addNew e.1.1 acc)) []) with
    | none => (none, s1)
    | some full =>
      match selectSpecialNumber st s1 with
      | (none, s2) => (none, s2)
      | (some sp, s2) =>
        (some ((stableSort (fun x y => decide (x ≤ y)) full).take 6, sp), s2)

/-- Seeding phase of `_generate_mixed_strategy_ticket`: three score-weighted
picks over the top-20 pool (the weight normalization `w / total` is unguarded
here, so a zero total raises). -/
def mixedSeed (st : PredictorState) (tops : List ℕ) : ℕ → List ℕ → RSrc →
    Option (List ℕ) × RSrc
  | 0, acc, s => (some acc, s)
  | k + 1, acc, s =>
    match (tops.take 20).filter (fun x => decide (x ∉ acc)) with
    | [] => mixedSeed st tops k acc s
    | c :: cs =>
      let candidates := c :: cs
      let ws := candidates.map (scoreOf st.regularScores)
      match npChoiceNorm candidates ws (s 0) with
      | none => (none, tl s)
      | some x => mixedSeed st tops k (addNew x acc) (tl s)

/-- Result of the mixed-strategy fill loop.  `fuelOut` is an artefact of this
embedding (the source loop is a `while`); `mixedFill_no_fuelOut` shows it is
unreachable with `6` fuel, which is exactly the source's termination argument. -/
inductive FillRes
  | ok (acc : List ℕ)
  | err
  | fuelOut
deriving DecidableEq

/-- Embeds the `while len(regular_nums) < 6` loop of
`_generate_mixed_strategy_ticket`: prefer a weighted draw over the top pairs
with exactly one endpoint in the set (adding the missing endpoint), else a
score-weighted draw over the whole remaining range (default weight `0.01`),
else `break`.  Both weight normalizations are unguarded divisions. -/
def mixedFill (st : PredictorState) (topPairs20 : List ((ℕ × ℕ) × ℕ)) :
    ℕ → List ℕ → RSrc → FillRes × RSrc
  | fuel, acc, s =>
    if acc.length < 6 then
      match fuel with
      | 0 => (FillRes.fuelOut, s)
      | k + 1 =>
        match topPairs20.filter (fun e => (decide (e.1.1 ∈ acc)) != (decide (e.1.2 ∈ acc))) with
        | r :: rs =>
          let relevant := r :: rs
          match npChoiceNorm relevant (relevant.map (fun e => Wq.ofNat e.2)) (s 0) with
          | none => (FillRes.err, tl s)
          | some e =>
            mixedFill st topPairs20 k (addNew (if e.1.1 ∈ acc then e.1.2 else e.1.1) acc) (tl s)
        | [] =>
          match regularRange.filter (fun x => decide (x ∉ acc)) with
          | [] => (FillRes.ok acc, s)
          | a :: as2 =>
            let available := a :: as2
            let ws := available.map (fun x => scoreOfD st.regularScores x ⟨1, 99⟩)
            match npChoiceNorm available ws (s 0) with
            | none => (FillRes.err, tl s)
            | some c => mixedFill st topPairs20 k (addNew c acc) (tl s)
    else (FillRes.ok acc, s)

/-- Embeds `_generate_mixed_strategy_ticket`. -/
def mixedTicket (st : PredictorState) (s : RSrc) : Option Ticket × RSrc :=
  match mixedSeed st ((topRegular st).map Prod.fst) 3 [] s with
  | (none, s1) => (none, s1)
  | (some seeded, s1) =>
    match mixedFill st ((stableSort (fun a b => decide (b.2 ≤ a.2)) st.pairFrequency).take 20)
        6 seeded s1 with
    | (FillRes.ok full, s2) =>
      match selectSpecialNumber st s2 with
      | (none, s3) => (none, s3)
      | (some sp, s3) => (some (stableSort (fun x y => decide (x ≤ y)) full, sp), s3)
    | (FillRes.err, s2) => (none, s2)
    | (FillRes.fuelOut, s2) => (none, s2)

/-- Embeds the strategy phase of `generate_tickets`: four core, four tiered,
four pair-based candidate tickets, in that order. -/
def strategyBatch (st : PredictorState) (s : RSrc) : Option (List Ticket) × RSrc :=
  match repTickets (coreTicket st (((topRegular st).map Prod.fst).take 15)) 4 s with
  | (none, s1) => (none, s1)
  | (some t1, s1) =>
    match repTickets (tieredTicket st (((topRegular st).map Prod.fst).take 10)
        ((((topRegular st).map Prod.fst).drop 10).take 10)
        ((((topRegular st).map Prod.fst).drop 20).take 10)) 4 s1 with
    | (none, s2) => (none, s2)
    | (some t2, s2) =>
      match repTickets (pairTicket st
          (((stableSort (fun a b => decide (b.2 ≤ a.2)) st.pairFrequency).take 30).take 15)
          ((topRegular st).map Prod.fst)) 4 s2 with
      | (none, s3) => (none, s3)
      | (some t3, s3) => (some ((t1 ++ t2) ++ t3), s3)

/-- The per-ticket validity check of `_validate_and_deduplicate`: exactly six
regular numbers, pairwise distinct, all in `[1, 37]`, special in `[1, 7]`. -/
def validTicket (t : Ticket) : Bool :=
  decide (t.1.length = 6) && decide (t.1.dedup.length = 6) &&
    t.1.all (fun x => decide (1 ≤ x) && decide (x ≤ 37)) &&
    (decide (1 ≤ t.2) && decide (t.2 ≤ 7))

/-- Accumulation loop of `_validate_and_deduplicate`: keep a candidate iff it
passes validation and is not already accepted. -/
def vdGo : List Ticket → List Ticket → List Ticket
  | [], acc => acc
  | t :: rest, acc =>
    if validTicket t && !(acc.contains t) then vdGo rest (acc ++ [t]) else vdGo rest acc

/-- Embeds `_validate_and_deduplicate`. -/
def validateAndDeduplicate (l : List Ticket) : List Ticket := vdGo l []

/-- Result of a `generate_tickets` run.  `err` is a Python exception;
`fuelOut` marks a run of the (unbounded) source top-up loop longer than the
embedding's fuel. -/
inductive GenRes
  | done (l : List Ticket)
  | err
  | fuelOut
deriving DecidableEq

/-- Embeds the `while len(valid_tickets) < num_tickets` top-up loop of
`generate_tickets` plus the final `valid_tickets[:num_tickets]`.  The source
loop has no iteration bound; `fuel` only makes the embedding total. -/
def topUpLoop (st : PredictorState) (ntk : ℕ) : ℕ → List Ticket → RSrc → GenRes
  | fuel, acc, s =>
    if acc.length < ntk then
      match fuel with
      | 0 => GenRes.fuelOut
      | k + 1 =>
        match mixedTicket st s with
        | (none, _) => GenRes.err
        | (some t, s1) =>
          if t ∈ acc then topUpLoop st ntk k acc s1
          else topUpLoop st ntk k (acc ++ [t]) s1
    else GenRes.done (acc.take ntk)

/-- Embeds `generate_tickets(num_tickets)` end to end. -/
def generateTickets (st : PredictorState) (ntk : ℕ) (s : RSrc) (fuel : ℕ) : GenRes :=
  match strategyBatch st s with
  | (none, _) => GenRes.err
  | (some batch, s1) => topUpLoop st ntk fuel (validateAndDeduplicate batch) s1

/-- Well-formedness of a predictor state that any analysis run establishes:
score keys and pair keys lie in the regular range. -/
def goodState (st : PredictorState) : Prop :=
  (∀ p ∈ st.regularScores, p.1 ∈ regularRange) ∧
  (∀ e ∈ st.pairFrequency, e.1.1 ∈ regularRange ∧ e.1.2 ∈ regularRange)

/-- Reference first-seen deduplication: keep each ticket's first occurrence, in
arrival order (the spec's "deduplicate by canonical equality, preserving
first-seen order", for lists of canonical tickets). -/
def dedupKeepFirst : List Ticket → List Ticket → List Ticket
  | [], acc => acc
  | t :: rest, acc =>
    if t ∈ acc then dedupKeepFirst rest acc else dedupKeepFirst rest (acc ++ [t])

/-- A one-draw history used for concrete runs of the embedded engine. -/
def exHistory : List DrawRecord := [⟨[1, 2, 3, 4, 5, 6], 1⟩]

/-- Constant-one decay curve: a positive weight stream standing in for the
exponential decay at a concrete input. -/
def wOne : ℕ → Wq := fun _ => Wq.one

/-- The predictor state the analysis derives from `exHistory`. -/
def exState : PredictorState := (buildState wOne wOne exHistory).getD ⟨[], [], []⟩

/-- The all-zero random stream: one possible behaviour of the process-wide
random generator. -/
def zeroSrc : RSrc := constSrc Wq.zero

/-- A state whose special-score table is all zero, exercising the zero-total
branch of `_select_special_number`. -/
def zeroSpecialState : PredictorState :=
  ⟨[], specialRange.map (fun x => (x, Wq.zero)), []⟩

/-- The twelve-candidate strategy batch the engine produces from `exState` on
the all-zero stream. -/
def exBatchList : List Ticket :=
  [([1, 2, 3, 4, 5, 6], 1), ([1, 2, 3, 4, 5, 6], 1), ([1, 2, 3, 4, 5, 6], 1),
   ([1, 2, 3, 4, 5, 6], 1), ([1, 2, 3, 11, 12, 21], 1), ([1, 2, 3, 11, 12, 21], 1),
   ([1, 2, 3, 11, 12, 21], 1), ([1, 2, 3, 11, 12, 21], 1), ([1, 2, 3, 4, 5, 6], 1),
   ([1, 2, 3, 4, 5, 6], 1), ([1, 2, 3, 4, 5, 6], 1), ([1, 2, 3, 4, 5, 6], 1)]

/-- The validated, deduplicated batch surviving from `exBatchList`. -/
def exOut : List Ticket := [([1, 2, 3, 4, 5, 6], 1), ([1, 2, 3, 11, 12, 21], 1)]

/-- A run of `generate_tickets` that exceeds every fuel bound: the source
top-up loop, which has no iteration cap, runs forever and never reports an
error. -/
def generateDiverges (st : PredictorState) (ntk : ℕ) (s : RSrc) : Prop :=
  ∀ fuel, generateTickets st ntk s fuel = GenRes.fuelOut

/-- Canonical form of a ticket (spec §3): regular numbers sorted ascending,
special number unchanged; two tickets are equal iff their canonical forms are. -/
def canonTicket (t : Ticket) : Ticket := (stableSort (fun a b => decide (a ≤ b)) t.1, t.2)

theorem Wq.denom_pos (a : Wq) : (0 : ℚ) < (a.d : ℚ) + 1 := by positivity

theorem Wq.toRat_zero : Wq.zero.toRat = 0 := by simp [Wq.toRat, Wq.zero]

theorem Wq.toRat_one : Wq.one.toRat = 1 := by simp [Wq.toRat, Wq.one]

theorem Wq.toRat_ofNat (k : ℕ) : (Wq.ofNat k).toRat = (k : ℚ) := by
  simp [Wq.toRat, Wq.ofNat]

theorem Wq.toRat_add (a b : Wq) : (Wq.add a b).toRat = a.toRat + b.toRat := by
  have ha := a.denom_pos
  have hb := b.denom_pos
  unfold Wq.toRat Wq.add
  rw [div_add_div _ _ (ne_of_gt ha) (ne_of_gt hb), div_eq_div_iff (by positivity) (by positivity)]
  push_cast
  ring

theorem Wq.toRat_mul (a b : Wq) : (Wq.mul a b).toRat = a.toRat * b.toRat := by
  have ha := a.denom_pos
  have hb := b.denom_pos
  unfold Wq.toRat Wq.mul
  rw [div_mul_div_comm, div_eq_div_iff (by positivity) (by positivity)]
  push_cast
  ring

theorem Wq.ble_iff (a b : Wq) : Wq.ble a b = true ↔ a.toRat ≤ b.toRat := by
  unfold Wq.ble Wq.toRat
  rw [decide_eq_true_iff, div_le_div_iff a.denom_pos b.denom_pos]
  constructor
  · intro h
    exact_mod_cast h
  · intro h
    exact_mod_cast h

theorem Wq.blt_iff (a b : Wq) : Wq.blt a b = true ↔ a.toRat < b.toRat := by
  unfold Wq.blt Wq.toRat
  rw [decide_eq_true_iff, div_lt_div_iff a.denom_pos b.denom_pos]
  constructor
  · intro h
    exact_mod_cast h
  · intro h
    exact_mod_cast h

theorem Wq.veq_iff (a b : Wq) : Wq.veq a b = true ↔ a.toRat = b.toRat := by
  unfold Wq.veq Wq.toRat
  rw [decide_eq_true_iff, div_eq_div_iff (ne_of_gt a.denom_pos) (ne_of_gt b.denom_pos)]
  constructor
  · intro h
    exact_mod_cast h
  · intro h
    exact_mod_cast h

theorem Wq.zero_iff_n (a : Wq) : a.toRat = 0 ↔ a.n = 0 := by
  unfold Wq.toRat
  rw [div_eq_zero_iff]
  have := a.denom_pos
  constructor
  · rintro (h | h)
    · exact_mod_cast h
    · exact absurd h (ne_of_gt this)
  · intro h
    exact Or.inl (by exact_mod_cast h)

theorem Wq.div_eq_none_iff (a b : Wq) : Wq.div a b = none ↔ b.n = 0 := by
  unfold Wq.div
  by_cases h : b.n = 0 <;> simp [h]

theorem Wq.toRat_div (a b c : Wq) (hc : Wq.div a b = some c) :
    c.toRat = a.toRat / b.toRat := by
  have hb : b.n ≠ 0 := by
    intro h
    rw [(Wq.div_eq_none_iff a b).mpr h] at hc
    exact Option.noConfusion hc
  simp only [Wq.div, hb, if_false, Option.some.injEq] at hc
  subst hc
  have hpos : 0 < b.n.natAbs := Int.natAbs_pos.mpr hb
  have hden : ((a.d + 1) * b.n.natAbs - 1 : ℕ) + 1 = (a.d + 1) * b.n.natAbs := by
    have h1 : 1 ≤ (a.d + 1) * b.n.natAbs := Nat.one_le_of_lt (Nat.lt_of_lt_of_le hpos
      (Nat.le_mul_of_pos_left _ (Nat.succ_pos _)))
    omega
  have hdenQ : (((a.d + 1) * b.n.natAbs - 1 : ℕ) : ℚ) + 1 = (((a.d + 1) * b.n.natAbs : ℕ) : ℚ) := by
    exact_mod_cast hden
  have hbQ : (b.n : ℚ) ≠ 0 := Int.cast_ne_zero.mpr hb
  unfold Wq.toRat
  rw [hdenQ]
  rcases lt_or_gt_of_ne hb with hneg | hposn
  · rw [if_pos hneg]
    have habs : (b.n.natAbs : ℚ) = -(b.n : ℚ) := by
      rw [Int.cast_natAbs]
      simp [abs_of_neg (show (b.n : ℚ) < 0 by exact_mod_cast hneg)]
    push_cast
    rw [habs]
    field_simp
  · rw [if_neg (not_lt.mpr (le_of_lt hposn))]
    have habs : (b.n.natAbs : ℚ) = (b.n : ℚ) := by
      rw [Int.cast_natAbs]
      simp [abs_of_pos (show (0 : ℚ) < (b.n : ℚ) by exact_mod_cast hposn)]
    push_cast
    rw [habs]
    field_simp

theorem Wq.fract_nonneg (q : Wq) : 0 ≤ q.fract.toRat := by
  unfold Wq.fract Wq.toRat
  apply div_nonneg _ (le_of_lt q.denom_pos)
  have : 0 ≤ q.n.emod ((q.d : ℤ) + 1) := Int.emod_nonneg _ (by positivity)
  exact_mod_cast this

theorem Wq.fract_lt_one (q : Wq) : q.fract.toRat < 1 := by
  unfold Wq.fract Wq.toRat
  rw [div_lt_one q.denom_pos]
  have : q.n.emod ((q.d : ℤ) + 1) < (q.d : ℤ) + 1 := Int.emod_lt_of_pos _ (by positivity)
  exact_mod_cast this

theorem Wq.toRat_lsum (l : List Wq) : (Wq.lsum l).toRat = (l.map Wq.toRat).sum := by
  induction l with
  | nil => simp [Wq.lsum, Wq.toRat_zero]
  | cons x xs ih => simp [Wq.lsum, Wq.toRat_add, ih]

theorem Wq.toRat_neg (a : Wq) : a.neg.toRat = -a.toRat := by
  unfold Wq.neg Wq.toRat
  push_cast
  ring

theorem Wq.toRat_sub (a b : Wq) : (Wq.sub a b).toRat = a.toRat - b.toRat := by
  unfold Wq.sub
  rw [Wq.toRat_add, Wq.toRat_neg]
  ring

theorem Wq.blt_eq_false_iff (a b : Wq) : Wq.blt a b = false ↔ b.toRat ≤ a.toRat := by
  rw [← not_lt, ← Wq.blt_iff a b]
  simp

theorem Wq.ble_eq_false_iff (a b : Wq) : Wq.ble a b = false ↔ b.toRat < a.toRat := by
  rw [← not_le, ← Wq.ble_iff a b]
  simp

theorem unitIdx_lt (q : Wq) (len : ℕ) (h : 0 < len) : unitIdx q len < len := by
  unfold unitIdx
  have hm : (q.n.emod ((q.d : ℤ) + 1)).toNat < q.d + 1 := by
    have h1 : q.n.emod ((q.d : ℤ) + 1) < (q.d : ℤ) + 1 := Int.emod_lt_of_pos _ (by positivity)
    omega
  rw [Nat.div_lt_iff_lt_mul (Nat.succ_pos _)]
  calc (q.n.emod ((q.d : ℤ) + 1)).toNat * len < (q.d + 1) * len := by
        exact Nat.mul_lt_mul_of_lt_of_le hm (le_refl len) h
    _ = len * (q.d + 1) := Nat.mul_comm _ _

theorem uniformPick_mem (items : List α) (q : Wq) (x : α) (h : uniformPick items q = some x) :
    x ∈ items := List.get?_mem h

theorem uniformPick_isSome (items : List α) (q : Wq) (h : items ≠ []) :
    (uniformPick items q).isSome = true := by
  unfold uniformPick
  rw [List.get?_eq_get (unitIdx_lt q items.length (List.length_pos.mpr h))]
  rfl

theorem weightedIdx_lt (ws : List Wq) (t : Wq) (h0 : 0 ≤ t.toRat)
    (hlt : t.toRat < (ws.map Wq.toRat).sum) : weightedIdx ws t < ws.length := by
  induction ws generalizing t with
  | nil => simp at hlt; linarith
  | cons w ws ih =>
    unfold weightedIdx
    by_cases hb : Wq.blt t w = true
    · simp [hb]
    · rw [if_neg hb]
      have hble : w.toRat ≤ t.toRat := (Wq.blt_eq_false_iff t w).mp
        (Bool.eq_false_iff.mpr hb)
      have h1 : 0 ≤ (Wq.sub t w).toRat := by rw [Wq.toRat_sub]; linarith
      have h2 : (Wq.sub t w).toRat < (ws.map Wq.toRat).sum := by
        rw [Wq.toRat_sub]
        simp only [List.map_cons, List.sum_cons] at hlt
        linarith
      have := ih (Wq.sub t w) h1 h2
      simpa [Nat.succ_lt_succ_iff] using this

theorem weightedPick_mem (items : List α) (ws : List Wq) (q : Wq) (x : α)
    (h : weightedPick items ws q = some x) : x ∈ items := List.get?_mem h

theorem weightedPick_isSome (items : List α) (ws : List Wq) (q : Wq)
    (hlen : ws.length = items.length) (hpos : 0 < (Wq.lsum ws).toRat) :
    (weightedPick items ws q).isSome = true := by
  unfold weightedPick
  have h0 : 0 ≤ (Wq.mul (Wq.fract q) (Wq.lsum ws)).toRat := by
    rw [Wq.toRat_mul]
    exact mul_nonneg (Wq.fract_nonneg q) (le_of_lt hpos)
  have h1 : (Wq.mul (Wq.fract q) (Wq.lsum ws)).toRat < (ws.map Wq.toRat).sum := by
    rw [Wq.toRat_mul, ← Wq.toRat_lsum]
    calc (Wq.fract q).toRat * (Wq.lsum ws).toRat < 1 * (Wq.lsum ws).toRat :=
          mul_lt_mul_of_pos_right (Wq.fract_lt_one q) hpos
      _ = (Wq.lsum ws).toRat := one_mul _
  have := weightedIdx_lt ws _ h0 h1
  rw [List.get?_eq_get (hlen ▸ this)]
  rfl

theorem insSorted_perm (keep : α → α → Bool) (x : α) (l : List α) :
    (insSorted keep x l).Perm (x :: l) := by
  induction l with
  | nil => simp [insSorted]
  | cons y ys ih =>
    unfold insSorted
    by_cases h : keep y x = true
    · rw [if_pos h]
      exact (ih.cons y).trans (List.Perm.swap x y ys)
    · rw [if_neg h]

theorem foldl_insSorted_perm (keep : α → α → Bool) :
    ∀ (l acc : List α), (l.foldl (fun a x => insSorted keep x a) acc).Perm (acc ++ l)
  | [], acc => by simp
  | x :: xs, acc => by
    have h1 := foldl_insSorted_perm keep xs (insSorted keep x acc)
    have h2 : (insSorted keep x acc ++ xs).Perm (acc ++ x :: xs) := by
      have := (insSorted_perm keep x acc).append_right xs
      exact this.trans (List.perm_middle).symm
    simpa using h1.trans h2

theorem stableSort_perm (keep : α → α → Bool) (l : List α) :
    (stableSort keep l).Perm l := by
  simpa using foldl_insSorted_perm keep l []

theorem mem_stableSort (keep : α → α → Bool) (l : List α) (x : α) :
    x ∈ stableSort keep l ↔ x ∈ l := (stableSort_perm keep l).mem_iff

theorem length_stableSort (keep : α → α → Bool) (l : List α) :
    (stableSort keep l).length = l.length := (stableSort_perm keep l).length_eq

theorem nodup_stableSort (keep : α → α → Bool) (l : List α) (h : l.Nodup) :
    (stableSort keep l).Nodup := ((stableSort_perm keep l).nodup_iff).mpr h

theorem mem_insSorted (keep : α → α → Bool) (x : α) (l : List α) (y : α) :
    y ∈ insSorted keep x l ↔ y = x ∨ y ∈ l := by
  rw [(insSorted_perm keep x l).mem_iff, List.mem_cons]

theorem insSorted_sorted (x : ℕ) (l : List ℕ) (h : l.Sorted (· ≤ ·)) :
    (insSorted (fun a b => decide (a ≤ b)) x l).Sorted (· ≤ ·) := by
  induction l with
  | nil => simp [insSorted]
  | cons y ys ih =>
    unfold insSorted
    by_cases hk : (decide (y ≤ x) : Bool) = true
    · rw [if_pos hk]
      have hyx : y ≤ x := of_decide_eq_true hk
      rw [List.sorted_cons] at h ⊢
      refine ⟨fun b hb => ?_, ih h.2⟩
      rcases (mem_insSorted _ x ys b).mp hb with rfl | hb2
      · exact hyx
      · exact h.1 b hb2
    · rw [if_neg hk]
      have hxy : x ≤ y := le_of_lt (lt_of_not_le (of_decide_eq_false (Bool.eq_false_iff.mpr hk)))
      rw [List.sorted_cons]
      refine ⟨fun b hb => ?_, h⟩
      rw [List.mem_cons] at hb
      rcases hb with rfl | hb2
      · exact hxy
      · rw [List.sorted_cons] at h
        exact le_trans hxy (h.1 b hb2)

theorem stableSort_asc_sorted (l : List ℕ) :
    (stableSort (fun a b => decide (a ≤ b)) l).Sorted (· ≤ ·) := by
  suffices h : ∀ (l acc : List ℕ), acc.Sorted (· ≤ ·) →
      (l.foldl (fun a x => insSorted (fun a b => decide (a ≤ b)) x a) acc).Sorted (· ≤ ·) by
    exact h l [] (by simp)
  intro l
  induction l with
  | nil => intro acc hacc; simpa using hacc
  | cons x xs ih =>
    intro acc hacc
    exact ih _ (insSorted_sorted x acc hacc)

theorem insSorted_of_forall_keep (keep : α → α → Bool) (x : α) (l : List α)
    (h : ∀ y ∈ l, keep y x = true) : insSorted keep x l = l ++ [x] := by
  induction l with
  | nil => simp [insSorted]
  | cons y ys ih =>
    unfold insSorted
    rw [if_pos (h y (List.mem_cons_self y ys)), ih (fun z hz => h z (List.mem_cons_of_mem y hz))]
    simp

theorem stableSort_asc_of_sorted (l : List ℕ) (h : l.Sorted (· ≤ ·)) :
    stableSort (fun a b => decide (a ≤ b)) l = l := by
  induction l using List.reverseRecOn with
  | nil => rfl
  | append_singleton ys y ih =>
    have hys : ys.Sorted (· ≤ ·) := h.sublist (List.sublist_append_left ys [y])
    have hall : ∀ z ∈ ys, z ≤ y := by
      intro z hz
      have := List.pairwise_append.mp h
      exact this.2.2 z hz y (List.mem_singleton_self y)
    unfold stableSort
    rw [List.foldl_append]
    have hfold : ys.foldl (fun a x => insSorted (fun a b => decide (a ≤ b)) x a) [] = ys := by
      simpa [stableSort] using ih hys
    rw [hfold]
    simp only [List.foldl_cons, List.foldl_nil]
    exact insSorted_of_forall_keep _ y ys (fun z hz => decide_eq_true (hall z hz))

theorem stableSort_asc_idem (l : List ℕ) :
    stableSort (fun a b => decide (a ≤ b)) (stableSort (fun a b => decide (a ≤ b)) l) =
      stableSort (fun a b => decide (a ≤ b)) l :=
  stableSort_asc_of_sorted _ (stableSort_asc_sorted l)

theorem mem_addNew (y x : ℕ) (l : List ℕ) : y ∈ addNew x l ↔ y = x ∨ y ∈ l := by
  unfold addNew
  by_cases h : x ∈ l
  · rw [if_pos h]
    constructor
    · exact Or.inr
    · rintro (rfl | hy)
      · exact h
      · exact hy
  · rw [if_neg h, List.mem_cons]

theorem subset_addNew (x : ℕ) (l : List ℕ) : l ⊆ addNew x l := by
  intro y hy
  exact (mem_addNew y x l).mpr (Or.inr hy)

theorem addNew_nodup (x : ℕ) (l : List ℕ) (h : l.Nodup) : (addNew x l).Nodup := by
  unfold addNew
  by_cases hm : x ∈ l
  · rwa [if_pos hm]
  · rw [if_neg hm]
    exact List.Nodup.cons hm h

theorem addNew_length_of_not_mem (x : ℕ) (l : List ℕ) (h : x ∉ l) :
    (addNew x l).length = l.length + 1 := by
  unfold addNew
  rw [if_neg h]
  rfl

theorem addNew_length_le (x : ℕ) (l : List ℕ) :
    (addNew x l).length ≤ l.length + 1 := by
  unfold addNew
  by_cases h : x ∈ l
  · rw [if_pos h]; omega
  · rw [if_neg h]; rfl

theorem mem_regularRange (x : ℕ) : x ∈ regularRange ↔ 1 ≤ x ∧ x ≤ 37 := by
  simp only [regularRange, List.mem_map, List.mem_range]
  constructor
  · rintro ⟨a, ha, rfl⟩
    omega
  · intro h
    exact ⟨x - 1, by omega, by omega⟩

theorem mem_specialRange (x : ℕ) : x ∈ specialRange ↔ 1 ≤ x ∧ x ≤ 7 := by
  simp only [specialRange, List.mem_map, List.mem_range]
  constructor
  · rintro ⟨a, ha, rfl⟩
    omega
  · intro h
    exact ⟨x - 1, by omega, by omega⟩

theorem npChoiceNorm_mem (items : List α) (ws : List Wq) (q : Wq) (x : α)
    (h : npChoiceNorm items ws q = some x) : x ∈ items := by
  unfold npChoiceNorm at h
  by_cases hz : (Wq.lsum ws).n = 0
  · rw [if_pos hz] at h
    exact Option.noConfusion h
  · rw [if_neg hz] at h
    exact weightedPick_mem items ws q x h

theorem topRegular_mem_range (st : PredictorState) (hg : goodState st) (x : ℕ)
    (hx : x ∈ (topRegular st).map Prod.fst) : x ∈ regularRange := by
  rcases List.mem_map.mp hx with ⟨p, hp, rfl⟩
  exact hg.1 p ((mem_stableSort _ _ p).mp hp)

theorem mixedSeed_props (st : PredictorState) (tops : List ℕ)
    (htops : ∀ x ∈ tops, x ∈ regularRange) :
    ∀ (k : ℕ) (acc : List ℕ) (s : RSrc), acc.Nodup → (∀ x ∈ acc, x ∈ regularRange) →
      ∀ res s2, mixedSeed st tops k acc s = (some res, s2) →
        res.Nodup ∧ (∀ x ∈ res, x ∈ regularRange) ∧ res.length ≤ acc.length + k
  | 0, acc, s => by
    intro hnd hrange res s2 h
    unfold mixedSeed at h
    injection h with h1 h2
    injection h1 with h1
    subst h1
    exact ⟨hnd, hrange, by omega⟩
  | k + 1, acc, s => by
    intro hnd hrange res s2 h
    unfold mixedSeed at h
    revert h
    cases hcand : (tops.take 20).filter (fun x => decide (x ∉ acc)) with
    | nil =>
      intro h
      have := mixedSeed_props st tops htops k acc s hnd hrange res s2 h
      exact ⟨this.1, this.2.1, by omega⟩
    | cons c cs =>
      simp only
      cases hch : npChoiceNorm (c :: cs) ((c :: cs).map (scoreOf st.regularScores)) (s 0) with
      | none =>
        intro h
        exact absurd h (by simp)
      | some x =>
        intro h
        have hxmem : x ∈ c :: cs := npChoiceNorm_mem _ _ _ _ hch
        have hxfilter : x ∈ (tops.take 20).filter (fun y => decide (y ∉ acc)) := by
          rw [hcand]; exact hxmem
        have hxtops : x ∈ tops.take 20 := List.mem_of_mem_filter hxfilter
        have hxnew : x ∉ acc := by
          have := List.of_mem_filter hxfilter
          exact of_decide_eq_true this
        have hxrange : x ∈ regularRange := htops x (List.mem_of_mem_take hxtops)
        have hrec := mixedSeed_props st tops htops k (addNew x acc) (tl s)
          (addNew_nodup x acc hnd)
          (fun y hy => by
            rcases (mem_addNew y x acc).mp hy with rfl | hy2
            · exact hxrange
            · exact hrange y hy2)
          res s2 h
        refine ⟨hrec.1, hrec.2.1, ?_⟩
        have := hrec.2.2
        rw [addNew_length_of_not_mem x acc hxnew] at this
        omega

theorem regularRange_nodup : regularRange.Nodup := by decide

theorem length_lt_of_filter_nil (acc : List ℕ) (hnd : acc.Nodup)
    (hfil : regularRange.filter (fun x => decide (x ∉ acc)) = []) : 37 ≤ acc.length := by
  have hsub : regularRange ⊆ acc := by
    intro x hx
    by_contra hmem
    have : x ∈ regularRange.filter (fun y => decide (y ∉ acc)) :=
      List.mem_filter.mpr ⟨hx, decide_eq_true hmem⟩
    rw [hfil] at this
    exact absurd this (List.not_mem_nil x)
  have h1 : regularRange.toFinset ⊆ acc.toFinset := by
    intro x hx
    rw [List.mem_toFinset] at hx ⊢
    exact hsub hx
  have h2 : regularRange.toFinset.card = 37 := by decide
  have h3 : acc.toFinset.card ≤ acc.length := acc.toFinset_card_le
  have := Finset.card_le_card h1
  omega

theorem mixedFill_props (st : PredictorState) (tp : List ((ℕ × ℕ) × ℕ))
    (htp : ∀ e ∈ tp, e.1.1 ∈ regularRange ∧ e.1.2 ∈ regularRange) :
    ∀ (fuel : ℕ) (acc : List ℕ) (s : RSrc), 6 ≤ acc.length + fuel → acc.length ≤ 6 →
      acc.Nodup → (∀ x ∈ acc, x ∈ regularRange) →
      (mixedFill st tp fuel acc s).1 ≠ FillRes.fuelOut ∧
      ∀ res s2, mixedFill st tp fuel acc s = (FillRes.ok res, s2) →
        res.length = 6 ∧ res.Nodup ∧ (∀ x ∈ res, x ∈ regularRange) ∧ acc ⊆ res := by
  intro fuel
  induction fuel with
  | zero =>
    intro acc s hfuel hle hnd hrange
    unfold mixedFill
    have hge : ¬ acc.length < 6 := by omega
    rw [if_neg hge]
    refine ⟨by simp, fun res s2 h => ?_⟩
    injection h with h1 h2
    injection h1 with h1
    subst h1
    exact ⟨by omega, hnd, hrange, fun x hx => hx⟩
  | succ k ih =>
    intro acc s hfuel hle hnd hrange
    unfold mixedFill
    by_cases hlen : acc.length < 6
    · rw [if_pos hlen]
      cases hrel : tp.filter (fun e => (decide (e.1.1 ∈ acc)) != (decide (e.1.2 ∈ acc))) with
      | cons r rs =>
        simp only
        cases hch : npChoiceNorm (r :: rs) ((r :: rs).map (fun e => Wq.ofNat e.2)) (s 0) with
        | none => exact ⟨by simp, fun res s2 h => by simp at h⟩
        | some e =>
          simp only
          have hemem : e ∈ tp.filter (fun e => (decide (e.1.1 ∈ acc)) != (decide (e.1.2 ∈ acc))) := by
            rw [hrel]; exact npChoiceNorm_mem _ _ _ _ hch
          have hetp : e ∈ tp := List.mem_of_mem_filter hemem
          have hxor := List.of_mem_filter hemem
          have hcnew : (if e.1.1 ∈ acc then e.1.2 else e.1.1) ∉ acc := by
            by_cases h1 : e.1.1 ∈ acc
            · rw [if_pos h1]
              intro h2
              rw [decide_eq_true h1, decide_eq_true h2] at hxor
              simp at hxor
            · rw [if_neg h1]
              exact h1
          have hcrange : (if e.1.1 ∈ acc then e.1.2 else e.1.1) ∈ regularRange := by
            by_cases h1 : e.1.1 ∈ acc
            · rw [if_pos h1]; exact (htp e hetp).2
            · rw [if_neg h1]; exact (htp e hetp).1
          have hlen2 := addNew_length_of_not_mem _ acc hcnew
          have hrec := ih (addNew (if e.1.1 ∈ acc then e.1.2 else e.1.1) acc) (tl s)
            (by omega) (by omega)
            (addNew_nodup _ acc hnd)
            (fun y hy => by
              rcases (mem_addNew y _ acc).mp hy with rfl | hy2
              · exact hcrange
              · exact hrange y hy2)
          refine ⟨hrec.1, fun res s2 h => ?_⟩
          have := hrec.2 res s2 h
          exact ⟨this.1, this.2.1, this.2.2.1,
            fun y hy => this.2.2.2 (subset_addNew _ acc hy)⟩
      | nil =>
        simp only
        cases hav : regularRange.filter (fun x => decide (x ∉ acc)) with
        | nil =>
          have := length_lt_of_filter_nil acc hnd hav
          omega
        | cons a as2 =>
          simp only
          cases hch : npChoiceNorm (a :: as2)
              ((a :: as2).map (fun x => scoreOfD st.regularScores x ⟨1, 99⟩)) (s 0) with
          | none => exact ⟨by simp, fun res s2 h => by simp at h⟩
          | some c =>
            simp only
            have hcmem : c ∈ regularRange.filter (fun x => decide (x ∉ acc)) := by
              rw [hav]; exact npChoiceNorm_mem _ _ _ _ hch
            have hcrange : c ∈ regularRange := List.mem_of_mem_filter hcmem
            have hcnew : c ∉ acc := by
              have := List.of_mem_filter hcmem
              exact of_decide_eq_true this
            have hlen2 := addNew_length_of_not_mem c acc hcnew
            have hrec := ih (addNew c acc) (tl s) (by omega) (by omega)
              (addNew_nodup c acc hnd)
              (fun y hy => by
                rcases (mem_addNew y c acc).mp hy with rfl | hy2
                · exact hcrange
                · exact hrange y hy2)
            refine ⟨hrec.1, fun res s2 h => ?_⟩
            have := hrec.2 res s2 h
            exact ⟨this.1, this.2.1, this.2.2.1,
              fun y hy => this.2.2.2 (subset_addNew c acc hy)⟩
    · rw [if_neg hlen]
      refine ⟨by simp, fun res s2 h => ?_⟩
      injection h with h1 h2
      injection h1 with h1
      subst h1
      exact ⟨by omega, hnd, hrange, fun x hx => hx⟩

theorem validTicket_eq_true_iff (t : Ticket) : validTicket t = true ↔
    t.1.length = 6 ∧ t.1.Nodup ∧ (∀ x ∈ t.1, 1 ≤ x ∧ x ≤ 37) ∧ 1 ≤ t.2 ∧ t.2 ≤ 7 := by
  unfold validTicket
  simp only [Bool.and_eq_true, decide_eq_true_eq, List.all_eq_true]
  constructor
  · rintro ⟨⟨⟨h1, h2⟩, h3⟩, h4, h5⟩
    have hnd : t.1.Nodup := by
      rw [← List.dedup_eq_self]
      exact t.1.dedup_sublist.eq_of_length (by rw [h1, h2])
    exact ⟨h1, hnd, fun x hx => h3 x hx, h4, h5⟩
  · rintro ⟨h1, h2, h3, h4, h5⟩
    refine ⟨⟨⟨h1, ?_⟩, fun x hx => h3 x hx⟩, h4, h5⟩
    rw [List.dedup_eq_self.mpr h2, h1]

theorem selectSpecialNumber_mem (st : PredictorState) (s : RSrc) (sp : ℕ) (s2 : RSrc)
    (h : selectSpecialNumber st s = (some sp, s2)) : 1 ≤ sp ∧ sp ≤ 7 := by
  unfold selectSpecialNumber at h
  injection h with h1 h2
  exact (mem_specialRange sp).mp (npChoiceNorm_mem _ _ _ _ h1)

theorem mixedTicket_valid (st : PredictorState) (hg : goodState st) (s : RSrc)
    (t : Ticket) (s2 : RSrc) (h : mixedTicket st s = (some t, s2)) :
    validTicket t = true ∧ t.1.Sorted (· ≤ ·) := by
  unfold mixedTicket at h
  rcases hseed : mixedSeed st ((topRegular st).map Prod.fst) 3 [] s with ⟨seedRes, s1⟩
  rw [hseed] at h
  cases seedRes with
  | none => simp at h
  | some seeded =>
    simp only at h
    have hseedprops := mixedSeed_props st ((topRegular st).map Prod.fst)
      (topRegular_mem_range st hg) 3 [] s List.nodup_nil (by simp) seeded s1 hseed
    rcases hfill : mixedFill st
        ((stableSort (fun a b => decide (b.2 ≤ a.2)) st.pairFrequency).take 20)
        6 seeded s1 with ⟨fillRes, s3⟩
    rw [hfill] at h
    have htp : ∀ e ∈ (stableSort (fun a b => decide (b.2 ≤ a.2)) st.pairFrequency).take 20,
        e.1.1 ∈ regularRange ∧ e.1.2 ∈ regularRange := by
      intro e he
      exact hg.2 e ((mem_stableSort _ _ e).mp (List.mem_of_mem_take he))
    cases fillRes with
    | err => simp at h
    | fuelOut => simp at h
    | ok full =>
      simp only at h
      have hlen3 : seeded.length ≤ 3 := by simpa using hseedprops.2.2
      have hfillprops := (mixedFill_props st _ htp 6 seeded s1 (by omega)
        (by omega) hseedprops.1 hseedprops.2.1).2 full s3 hfill
      rcases hsp : selectSpecialNumber st s3 with ⟨spRes, s4⟩
      rw [hsp] at h
      cases spRes with
      | none => simp at h
      | some sp =>
        simp only [Option.some.injEq, Prod.mk.injEq] at h
        have hspmem := selectSpecialNumber_mem st s3 sp s4 hsp
        rcases h with ⟨rfl, rfl⟩
        constructor
        · rw [validTicket_eq_true_iff]
          refine ⟨?_, ?_, ?_, hspmem.1, hspmem.2⟩
          · rw [length_stableSort]
            exact hfillprops.1
          · exact nodup_stableSort _ _ hfillprops.2.1
          · intro x hx
            exact (mem_regularRange x).mp
              (hfillprops.2.2.1 x ((mem_stableSort _ _ x).mp hx))
        · exact stableSort_asc_sorted full

theorem vdGo_eq_dedupKeepFirst :
    ∀ (l acc : List Ticket), vdGo l acc = dedupKeepFirst (l.filter validTicket) acc
  | [], acc => rfl
  | t :: rest, acc => by
    unfold vdGo
    by_cases hv : validTicket t = true
    · rw [List.filter_cons_of_pos hv]
      unfold dedupKeepFirst
      by_cases hm : t ∈ acc
      · rw [if_pos hm, if_neg (by simp [hv, hm]),
          vdGo_eq_dedupKeepFirst rest acc]
      · rw [if_neg hm, if_pos (by simp [hv, hm]),
          vdGo_eq_dedupKeepFirst rest (acc ++ [t])]
    · rw [List.filter_cons_of_neg (by simp [hv]),
        if_neg (by simp [hv]), vdGo_eq_dedupKeepFirst rest acc]

theorem vdGo_valid : ∀ (l acc : List Ticket), (∀ t ∈ acc, validTicket t = true) →
    ∀ t ∈ vdGo l acc, validTicket t = true
  | [], acc => fun hacc => hacc
  | t :: rest, acc => by
    intro hacc u hu
    unfold vdGo at hu
    by_cases hcond : (validTicket t && !(acc.contains t)) = true
    · rw [if_pos hcond] at hu
      refine vdGo_valid rest (acc ++ [t]) ?_ u hu
      intro v hv
      rcases List.mem_append.mp hv with hv1 | hv2
      · exact hacc v hv1
      · rw [List.mem_singleton.mp hv2]
        exact (Bool.and_eq_true _ _).mp hcond |>.1
    · rw [if_neg hcond] at hu
      exact vdGo_valid rest acc hacc u hu

theorem vdGo_nodup : ∀ (l acc : List Ticket), acc.Nodup → (vdGo l acc).Nodup
  | [], acc => fun h => h
  | t :: rest, acc => by
    intro hacc
    unfold vdGo
    by_cases hcond : (validTicket t && !(acc.contains t)) = true
    · rw [if_pos hcond]
      refine vdGo_nodup rest (acc ++ [t]) ?_
      rw [List.nodup_append]
      refine ⟨hacc, List.nodup_singleton t, ?_⟩
      intro v hv
      rw [List.mem_singleton]
      intro hvt
      subst hvt
      have := (Bool.and_eq_true _ _).mp hcond |>.2
      rw [Bool.not_eq_true', ← Bool.not_eq_true] at this
      exact this (List.elem_iff.mpr hv)
    · rw [if_neg hcond]
      exact vdGo_nodup rest acc hacc

theorem vdGo_sorted (Q : Ticket → Prop) : ∀ (l acc : List Ticket), (∀ t ∈ l, Q t) →
    (∀ t ∈ acc, Q t) → ∀ t ∈ vdGo l acc, Q t
  | [], acc => fun _ hacc => hacc
  | t :: rest, acc => by
    intro hl hacc u hu
    unfold vdGo at hu
    by_cases hcond : (validTicket t && !(acc.contains t)) = true
    · rw [if_pos hcond] at hu
      refine vdGo_sorted Q rest (acc ++ [t]) (fun v hv => hl v (List.mem_cons_of_mem t hv)) ?_ u hu
      intro v hv
      rcases List.mem_append.mp hv with hv1 | hv2
      · exact hacc v hv1
      · rw [List.mem_singleton.mp hv2]
        exact hl t (List.mem_cons_self t rest)
    · rw [if_neg hcond] at hu
      exact vdGo_sorted Q rest acc (fun v hv => hl v (List.mem_cons_of_mem t hv)) hacc u hu

theorem topUpLoop_done_props (st : PredictorState) (ntk : ℕ) (P : Ticket → Prop)
    (hmix : ∀ s1 t s2, mixedTicket st s1 = (some t, s2) → P t) :
    ∀ (fuel : ℕ) (acc : List Ticket) (s : RSrc) (out : List Ticket),
      (∀ t ∈ acc, P t) → topUpLoop st ntk fuel acc s = GenRes.done out →
      (∀ t ∈ out, P t) ∧ out.length = ntk ∧ (acc.Nodup → out.Nodup) ∧
        ∃ ext, out = (acc ++ ext).take ntk := by
  intro fuel
  induction fuel with
  | zero =>
    intro acc s out hP h
    unfold topUpLoop at h
    by_cases hlen : acc.length < ntk
    · rw [if_pos hlen] at h
      exact absurd h (by simp)
    · rw [if_neg hlen] at h
      injection h with h
      subst h
      refine ⟨fun t ht => hP t (List.mem_of_mem_take ht),
        by rw [List.length_take]; omega,
        fun hnd => hnd.sublist (List.take_sublist ntk acc), [], by simp⟩
  | succ k ih =>
    intro acc s out hP h
    unfold topUpLoop at h
    by_cases hlen : acc.length < ntk
    · rw [if_pos hlen] at h
      rcases hmt : mixedTicket st s with ⟨mtRes, s1⟩
      rw [hmt] at h
      cases mtRes with
      | none => simp at h
      | some t =>
        simp only at h
        by_cases hmem : t ∈ acc
        · rw [if_pos hmem] at h
          exact ih acc s1 out hP h
        · rw [if_neg hmem] at h
          have hPt : P t := hmix s t s1 hmt
          have hrec := ih (acc ++ [t]) s1 out
            (fun v hv => by
              rcases List.mem_append.mp hv with hv1 | hv2
              · exact hP v hv1
              · rw [List.mem_singleton.mp hv2]; exact hPt) h
          refine ⟨hrec.1, hrec.2.1, fun hnd => hrec.2.2.1 ?_, ?_⟩
          · rw [List.nodup_append]
            exact ⟨hnd, List.nodup_singleton t,
              fun v hv => by rw [List.mem_singleton]; rintro rfl; exact hmem hv⟩
          · rcases hrec.2.2.2 with ⟨ext, hext⟩
            exact ⟨[t] ++ ext, by rw [hext, List.append_assoc]⟩
    · rw [if_neg hlen] at h
      injection h with h
      subst h
      refine ⟨fun t ht => hP t (List.mem_of_mem_take ht),
        by rw [List.length_take]; omega,
        fun hnd => hnd.sublist (List.take_sublist ntk acc), [], by simp⟩

theorem mapO_none_all (f : ℕ → Option (ℕ × Wq)) :
    ∀ l : List ℕ, l ≠ [] → (∀ x ∈ l, f x = none) → mapO f l = none
  | [], h, _ => absurd rfl h
  | x :: xs, _, hall => by
    unfold mapO
    rw [hall x (List.mem_cons_self x xs)]

theorem recencyWeight_nil (w : ℕ → Wq) (x : ℕ) : recencyWeight w [] x = Wq.zero := rfl

theorem specialRecencyWeight_nil (w : ℕ → Wq) (x : ℕ) :
    specialRecencyWeight w [] x = Wq.zero := rfl

theorem regular_maxR_nil (w : ℕ → Wq) :
    (listMaxW (regularRange.map (recencyWeight w []))).n = 0 := by
  rw [List.map_congr_left (fun x _ => recencyWeight_nil w x)]
  decide

theorem special_maxR_nil (w : ℕ → Wq) :
    (listMaxW (specialRange.map (specialRecencyWeight w []))).n = 0 := by
  rw [List.map_congr_left (fun x _ => specialRecencyWeight_nil w x)]
  decide

theorem analyzeRegular_nil (w : ℕ → Wq) : analyzeRegularNumbers w [] = none := by
  unfold analyzeRegularNumbers
  apply mapO_none_all _ regularRange (by decide)
  intro x hx
  unfold regularEntry
  rw [show Wq.div (Wq.ofNat (regularCount [] x)) (Wq.ofNat (regularMaxFreq [])) =
    some ⟨0, 0⟩ from rfl]
  rw [(Wq.div_eq_none_iff _ _).mpr (regular_maxR_nil w)]

theorem analyzeSpecial_nil (w : ℕ → Wq) : analyzeSpecialNumbers w [] = none := by
  unfold analyzeSpecialNumbers
  apply mapO_none_all _ specialRange (by decide)
  intro x hx
  unfold specialEntry
  rw [show Wq.div (Wq.ofNat (specialCount [] x)) (Wq.ofNat (specialMaxFreq [])) =
    some ⟨0, 0⟩ from rfl]
  rw [(Wq.div_eq_none_iff _ _).mpr (special_maxR_nil w)]

theorem Wq.toRat_pos_of_n (a : Wq) (h : 0 < a.n) : 0 < a.toRat := by
  unfold Wq.toRat
  apply div_pos _ a.denom_pos
  exact_mod_cast h

/-- C4: on an empty analysis window the embedded score computation FAILS rather
than producing all-zero tables.  The frequency maximum is guarded by `Counter`
emptiness, but the recency maximum is taken over the always-nonempty
pre-initialized per-number dict, so for an empty window it is `0` and the
division `weight / max_recency` raises `ZeroDivisionError` (here: `none`) in
both the regular and the special analysis; the spec's "substitute 1" never
happens for the recency component. -/
theorem C4_empty_window_analysis_fails (wr ws : ℕ → Wq) :
    analyzeRegularNumbers wr [] = none ∧ analyzeSpecialNumbers ws [] = none ∧
    buildState wr ws [] = none := by
  refine ⟨analyzeRegular_nil wr, analyzeSpecial_nil ws, ?_⟩
  unfold buildState
  rw [analyzeRegular_nil wr]

/-- C5 (amended): `_select_special_number` makes one weighted random draw over
the full special range `1..7` with the special score table as weights, and any
successful draw lands in that range; but on a zero total weight there is no
uniform fallback — the unguarded normalization `w / total` fails. -/
theorem C5_selectSpecial_weighted_draw (st : PredictorState) (s : RSrc) :
    ((Wq.lsum (specialRange.map (scoreOf st.specialScores))).n = 0 →
      (selectSpecialNumber st s).1 = none) ∧
    (0 < (Wq.lsum (specialRange.map (scoreOf st.specialScores))).toRat →
      ∃ sp ∈ specialRange, (selectSpecialNumber st s).1 = some sp) := by
  constructor
  · intro hz
    unfold selectSpecialNumber npChoiceNorm
    simp only
    rw [if_pos hz]
  · intro hpos
    unfold selectSpecialNumber npChoiceNorm
    simp only
    have hn : ¬ (Wq.lsum (specialRange.map (scoreOf st.specialScores))).n = 0 := by
      intro h0
      rw [← Wq.zero_iff_n] at h0
      rw [h0] at hpos
      exact lt_irrefl 0 hpos
    rw [if_neg hn]
    have hs := weightedPick_isSome specialRange
      (specialRange.map (scoreOf st.specialScores)) (s 0) (List.length_map _ _) hpos
    rcases Option.isSome_iff_exists.mp hs with ⟨sp, hsp⟩
    exact ⟨sp, weightedPick_mem _ _ _ _ hsp, hsp⟩

/-- C5 counterexample to the claim as stated: on an all-zero special score
table the selection does not fall back to a uniform draw — the zero total
weight makes the division fail, so an error is exactly what is propagated. -/
theorem C5_counterexample_no_uniform_fallback :
    (selectSpecialNumber zeroSpecialState zeroSrc).1 = none := by decide

/-- Witness for `C5_selectSpecial_weighted_draw` at the concrete state derived
from `exHistory`. -/
theorem C5_witness :
    0 < (Wq.lsum (specialRange.map (scoreOf exState.specialScores))).toRat ∧
    ∃ sp ∈ specialRange, (selectSpecialNumber exState zeroSrc).1 = some sp := by
  have hpos : 0 < (Wq.lsum (specialRange.map (scoreOf exState.specialScores))).toRat :=
    Wq.toRat_pos_of_n _ (by decide)
  exact ⟨hpos, (C5_selectSpecial_weighted_draw exState zeroSrc).2 hpos⟩

/-- C8: determinism — the generated batch is a function of the input history,
the decay curves, the requested count and the random-generator state; the
engine holds no seed state of its own (its whole state is the three analysis
tables).  Two runs built from the same history that consume the same random
stream produce identical output. -/
theorem C8_fixed_seed_deterministic (wr ws : ℕ → Wq) (records : List DrawRecord)
    (st1 st2 : PredictorState) (h1 : buildState wr ws records = some st1)
    (h2 : buildState wr ws records = some st2) (ntk : ℕ) (s : RSrc) (fuel : ℕ) :
    generateTickets st1 ntk s fuel = generateTickets st2 ntk s fuel := by
  rw [h1] at h2
  injection h2 with h2
  rw [h2]

/-- Witness for `C8_fixed_seed_deterministic` on the concrete one-draw history. -/
theorem C8_witness : buildState wOne wOne exHistory = some exState ∧
    generateTickets exState 2 zeroSrc 0 = generateTickets exState 2 zeroSrc 0 := by
  have hb : buildState wOne wOne exHistory = some exState := by decide
  exact ⟨hb, C8_fixed_seed_deterministic wOne wOne exHistory exState exState hb hb 2 zeroSrc 0⟩

/-- C10: calling `generate_tickets` with `num_tickets = 0` returns the empty
list without raising: the validated strategy batch is still computed (hence the
hypothesis that it succeeds), the top-up loop body never runs because its
condition is already false, and the empty prefix is returned. -/
theorem C10_zero_tickets_empty (st : PredictorState) (s : RSrc) (fuel : ℕ)
    (batch : List Ticket) (s1 : RSrc) (hb : strategyBatch st s = (some batch, s1)) :
    generateTickets st 0 s fuel = GenRes.done [] := by
  unfold generateTickets
  rw [hb]
  simp only
  unfold topUpLoop
  rw [if_neg (by omega)]
  rw [List.take_zero]

/-- Witness for `C10_zero_tickets_empty` at the concrete state. -/
theorem C10_witness : (strategyBatch exState zeroSrc).1.isSome = true ∧
    generateTickets exState 0 zeroSrc 0 = GenRes.done [] := by
  have hsome : (strategyBatch exState zeroSrc).1.isSome = true := by decide
  exact ⟨hsome, C10_zero_tickets_empty exState zeroSrc 0
    ((strategyBatch exState zeroSrc).1.get hsome) (strategyBatch exState zeroSrc).2
    (by rw [Option.some_get hsome])⟩

/-- C1: every ticket in a list returned by `generate_tickets` — including
tickets appended by the mixed-fallback top-up loop, which bypasses
`_validate_and_deduplicate` — has exactly `NUMBERS_PER_TICKET = 6` distinct
regular numbers, each in `[1, 37]`, and a special number in `[1, 7]`. -/
theorem C1_all_returned_tickets_valid (st : PredictorState) (hg : goodState st)
    (ntk : ℕ) (s : RSrc) (fuel : ℕ) (out : List Ticket)
    (h : generateTickets st ntk s fuel = GenRes.done out) :
    ∀ t ∈ out, t.1.length = 6 ∧ t.1.Nodup ∧ (∀ x ∈ t.1, 1 ≤ x ∧ x ≤ 37) ∧
      1 ≤ t.2 ∧ t.2 ≤ 7 := by
  unfold generateTickets at h
  rcases hb : strategyBatch st s with ⟨bRes, s1⟩
  rw [hb] at h
  cases bRes with
  | none => simp at h
  | some batch =>
    simp only at h
    have hprops := topUpLoop_done_props st ntk (fun t => validTicket t = true)
      (fun s0 t s2 hmt => (mixedTicket_valid st hg s0 t s2 hmt).1)
      fuel (validateAndDeduplicate batch) s1 out
      (vdGo_valid batch [] (fun t ht => absurd ht (List.not_mem_nil t))) h
    intro t ht
    exact (validTicket_eq_true_iff t).mp (hprops.1 t ht)

/-- Witness for `C1_all_returned_tickets_valid` on the concrete state. -/
theorem C1_witness : goodState exState ∧
    generateTickets exState 2 zeroSrc 0 = GenRes.done exOut ∧
    ∀ t ∈ exOut, t.1.length = 6 ∧ t.1.Nodup ∧ (∀ x ∈ t.1, 1 ≤ x ∧ x ≤ 37) ∧
      1 ≤ t.2 ∧ t.2 ≤ 7 := by
  have hg : goodState exState := ⟨by decide, by decide⟩
  have hd : generateTickets exState 2 zeroSrc 0 = GenRes.done exOut := by decide
  exact ⟨hg, hd, C1_all_returned_tickets_valid exState hg 2 zeroSrc 0 exOut hd⟩

/-- C2 (amended): whenever the top-up loop terminates, `generate_tickets`
returns exactly `num_tickets` tickets — it never silently returns fewer. -/
theorem C2_done_exact_count (st : PredictorState) (ntk : ℕ) (s : RSrc) (fuel : ℕ)
    (out : List Ticket) (h : generateTickets st ntk s fuel = GenRes.done out) :
    out.length = ntk := by
  unfold generateTickets at h
  rcases hb : strategyBatch st s with ⟨bRes, s1⟩
  rw [hb] at h
  cases bRes with
  | none => simp at h
  | some batch =>
    simp only at h
    exact (topUpLoop_done_props st ntk (fun _ => True) (fun _ _ _ _ => trivial)
      fuel _ s1 out (fun _ _ => trivial) h).2.1

theorem exBatch_eq : strategyBatch exState zeroSrc = (some exBatchList, zeroSrc) := rfl

theorem exVd_eq : validateAndDeduplicate exBatchList = exOut := by decide

theorem exMixed_eq : mixedTicket exState zeroSrc = (some ([1, 2, 3, 4, 5, 6], 1), zeroSrc) := rfl

theorem exLoop_diverges : ∀ fuel, topUpLoop exState 3 fuel exOut zeroSrc = GenRes.fuelOut := by
  intro fuel
  induction fuel with
  | zero =>
    unfold topUpLoop
    rw [if_pos (by decide)]
  | succ k ih =>
    unfold topUpLoop
    rw [if_pos (by decide), exMixed_eq]
    exact ih

/-- C2 counterexample: a concrete history-derived state, request and
random-generator behaviour on which `generate_tickets` neither returns nor
raises within any bound — the top-up loop keeps regenerating an
already-accepted ticket forever, and no "unable to satisfy request" failure
exists in the code. -/
theorem C2_counterexample_unbounded_topup : generateDiverges exState 3 zeroSrc := by
  intro fuel
  have h1 : generateTickets exState 3 zeroSrc fuel =
      topUpLoop exState 3 fuel (validateAndDeduplicate exBatchList) zeroSrc := by
    unfold generateTickets
    rw [exBatch_eq]
  rw [h1, exVd_eq]
  exact exLoop_diverges fuel

/-- Witness for `C2_done_exact_count` on a terminating concrete run. -/
theorem C2_witness : generateTickets exState 2 zeroSrc 0 = GenRes.done exOut ∧
    exOut.length = 2 := by
  have hd : generateTickets exState 2 zeroSrc 0 = GenRes.done exOut := by decide
  exact ⟨hd, C2_done_exact_count exState 2 zeroSrc 0 exOut hd⟩

/-- C9: the mixed-fallback while-loop always terminates: every iteration grows
the chosen number set by exactly one fresh element (the missing pair endpoint,
or a not-yet-chosen range number), so `6 - |acc|` iterations always reach
`NUMBERS_PER_TICKET`; the `break` branch would need all 37 range numbers
already chosen, impossible while the set is below six. -/
theorem C9_mixed_fill_terminates (st : PredictorState) (tp : List ((ℕ × ℕ) × ℕ))
    (htp : ∀ e ∈ tp, e.1.1 ∈ regularRange ∧ e.1.2 ∈ regularRange)
    (fuel : ℕ) (acc : List ℕ) (s : RSrc) (hfuel : 6 - acc.length ≤ fuel)
    (hle : acc.length ≤ 6) (hnd : acc.Nodup) (hrange : ∀ x ∈ acc, x ∈ regularRange) :
    (mixedFill st tp fuel acc s).1 ≠ FillRes.fuelOut ∧
    ∀ res s2, mixedFill st tp fuel acc s = (FillRes.ok res, s2) →
      res.length = 6 ∧ acc ⊆ res := by
  have h := mixedFill_props st tp htp fuel acc s (by omega) hle hnd hrange
  exact ⟨h.1, fun res s2 hr => ⟨(h.2 res s2 hr).1, (h.2 res s2 hr).2.2.2⟩⟩

/-- Witness for `C9_mixed_fill_terminates` at a concrete loop entry. -/
theorem C9_witness : (6 - ([] : List ℕ).length ≤ 6) ∧
    (mixedFill exState [] 6 [] zeroSrc).1 ≠ FillRes.fuelOut := by
  refine ⟨by decide, (C9_mixed_fill_terminates exState []
    (fun e he => absurd he (List.not_mem_nil e)) 6 [] zeroSrc (by decide) (by decide)
    List.nodup_nil (fun x hx => absurd hx (List.not_mem_nil x))).1⟩

theorem repTickets_props (gen : RSrc → Option Ticket × RSrc) (P : Ticket → Prop)
    (hgen : ∀ s t s2, gen s = (some t, s2) → P t) :
    ∀ (k : ℕ) (s : RSrc) (ts : List Ticket) (s2 : RSrc),
      repTickets gen k s = (some ts, s2) → ∀ t ∈ ts, P t
  | 0, s, ts, s2 => by
    intro h t ht
    unfold repTickets at h
    injection h with h1 h2
    injection h1 with h1
    subst h1
    exact absurd ht (List.not_mem_nil t)
  | k + 1, s, ts, s2 => by
    intro h t ht
    unfold repTickets at h
    revert h
    rcases hg : gen s with ⟨gRes, s1⟩
    cases gRes with
    | none => intro h; simp at h
    | some t1 =>
      simp only
      rcases hr : repTickets gen k s1 with ⟨rRes, s3⟩
      cases rRes with
      | none => intro h; simp at h
      | some ts1 =>
        simp only
        intro h
        injection h with h1 h2
        injection h1 with h1
        subst h1
        rcases List.mem_cons.mp ht with rfl | ht2
        · exact hgen s t s1 hg
        · exact repTickets_props gen P hgen k s1 ts1 s3 hr t ht2

theorem coreTicket_sorted (st : PredictorState) (coreSet : List ℕ) (s : RSrc)
    (t : Ticket) (s2 : RSrc) (h : coreTicket st coreSet s = (some t, s2)) :
    t.1.Sorted (· ≤ ·) := by
  unfold coreTicket at h
  rcases h1 : corePick3 st 3 [] coreSet s with ⟨r1, s1⟩
  rw [h1] at h
  cases r1 with
  | none => simp at h
  | some pr =>
    simp only at h
    rcases h2 : coreTicketPhase2 st pr.1 pr.2 s1 with ⟨r2, s3⟩
    rw [h2] at h
    cases r2 with
    | none => simp at h
    | some t6 =>
      simp only at h
      rcases h3 : fillUniform 6 t6 s3 with ⟨r3, s4⟩
      rw [h3] at h
      cases r3 with
      | none => simp at h
      | some full =>
        simp only at h
        rcases h4 : selectSpecialNumber st s4 with ⟨r4, s5⟩
        rw [h4] at h
        cases r4 with
        | none => simp at h
        | some sp =>
          simp only [Option.some.injEq, Prod.mk.injEq] at h
          rcases h with ⟨rfl, rfl⟩
          exact stableSort_asc_sorted full

theorem tieredTicket_sorted (st : PredictorState) (t1p t2p t3p : List ℕ) (s : RSrc)
    (t : Ticket) (s2 : RSrc) (h : tieredTicket st t1p t2p t3p s = (some t, s2)) :
    t.1.Sorted (· ≤ ·) := by
  unfold tieredTicket at h
  rcases h1 : sampleK t1p 3 s with ⟨r1, s1⟩
  rw [h1] at h
  cases r1 with
  | none => simp at h
  | some a =>
    simp only at h
    rcases h2 : sampleK t2p 2 s1 with ⟨r2, s3⟩
    rw [h2] at h
    cases r2 with
    | none => simp at h
    | some b =>
      simp only at h
      cases h3 : uniformPick t3p (s3 0) with
      | none => rw [h3] at h; simp at h
      | some c =>
        rw [h3] at h
        simp only at h
        rcases h4 : selectSpecialNumber st (tl s3) with ⟨r4, s5⟩
        rw [h4] at h
        cases r4 with
        | none => simp at h
        | some sp =>
          simp only [Option.some.injEq, Prod.mk.injEq] at h
          rcases h with ⟨rfl, rfl⟩
          exact stableSort_asc_sorted _

theorem pairTicket_sorted (st : PredictorState) (tp15 : List ((ℕ × ℕ) × ℕ))
    (tops : List ℕ) (s : RSrc) (t : Ticket) (s2 : RSrc)
    (h : pairTicket st tp15 tops s = (some t, s2)) : t.1.Sorted (· ≤ ·) := by
  unfold pairTicket at h
  rcases h1 : sampleK tp15 3 s with ⟨r1, s1⟩
  rw [h1] at h
  cases r1 with
  | none => simp at h
  | some ps =>
    simp only at h
    cases h2 : pairFill tops 6 (ps.foldl (fun acc e => addNew e.1.2 (addNew e.1.1 acc)) []) with
    | none => rw [h2] at h; simp at h
    | some full =>
      rw [h2] at h
      simp only at h
      rcases h3 : selectSpecialNumber st s1 with ⟨r3, s4⟩
      rw [h3] at h
      cases r3 with
      | none => simp at h
      | some sp =>
        simp only [Option.some.injEq, Prod.mk.injEq] at h
        rcases h with ⟨rfl, rfl⟩
        exact (stableSort_asc_sorted full).sublist (List.take_sublist 6 _)

theorem strategyBatch_sorted (st : PredictorState) (s : RSrc) (batch : List Ticket)
    (s1 : RSrc) (h : strategyBatch st s = (some batch, s1)) :
    ∀ t ∈ batch, t.1.Sorted (· ≤ ·) := by
  unfold strategyBatch at h
  rcases h1 : repTickets (coreTicket st (((topRegular st).map Prod.fst).take 15)) 4 s
    with ⟨r1, sA⟩
  rw [h1] at h
  cases r1 with
  | none => simp at h
  | some l1 =>
    simp only at h
    rcases h2 : repTickets (tieredTicket st (((topRegular st).map Prod.fst).take 10)
        ((((topRegular st).map Prod.fst).drop 10).take 10)
        ((((topRegular st).map Prod.fst).drop 20).take 10)) 4 sA with ⟨r2, sB⟩
    rw [h2] at h
    cases r2 with
    | none => simp at h
    | some l2 =>
      simp only at h
      rcases h3 : repTickets (pairTicket st
          (((stableSort (fun a b => decide (b.2 ≤ a.2)) st.pairFrequency).take 30).take 15)
          ((topRegular st).map Prod.fst)) 4 sB with ⟨r3, sC⟩
      rw [h3] at h
      cases r3 with
      | none => simp at h
      | some l3 =>
        simp only [Option.some.injEq, Prod.mk.injEq] at h
        rcases h with ⟨rfl, rfl⟩
        intro t ht
        rcases List.mem_append.mp ht with ht12 | ht3
        · rcases List.mem_append.mp ht12 with ht1 | ht2
          · exact repTickets_props _ _ (fun s0 u s2 hu => coreTicket_sorted st _ s0 u s2 hu)
              4 s l1 sA h1 t ht1
          · exact repTickets_props _ _ (fun s0 u s2 hu => tieredTicket_sorted st _ _ _ s0 u s2 hu)
              4 sA l2 sB h2 t ht2
        · exact repTickets_props _ _ (fun s0 u s2 hu => pairTicket_sorted st _ _ s0 u s2 hu)
            4 sB l3 sC h3 t ht3

/-- C3: no two tickets of a returned batch are equal under canonical form, and
deduplication preserves first-seen order: `_validate_and_deduplicate` is
exactly "drop invalid candidates, then keep each ticket's first occurrence in
order", and the returned list is the prefix of first `num_tickets` accepted
tickets, in acceptance order (validated batch first, then accepted top-ups). -/
theorem C3_dedup_first_seen_canonical :
    (∀ l : List Ticket, validateAndDeduplicate l = dedupKeepFirst (l.filter validTicket) []) ∧
    ∀ (st : PredictorState), goodState st → ∀ (ntk : ℕ) (s : RSrc) (fuel : ℕ)
      (out : List Ticket), generateTickets st ntk s fuel = GenRes.done out →
      out.Pairwise (fun a b => canonTicket a ≠ canonTicket b) ∧
      ∃ batch s1 ext, strategyBatch st s = (some batch, s1) ∧
        out = (validateAndDeduplicate batch ++ ext).take ntk := by
  constructor
  · intro l
    unfold validateAndDeduplicate
    exact vdGo_eq_dedupKeepFirst l []
  · intro st hg ntk s fuel out h
    unfold generateTickets at h
    rcases hb : strategyBatch st s with ⟨bRes, s1⟩
    rw [hb] at h
    cases bRes with
    | none => simp at h
    | some batch =>
      simp only at h
      have hprops := topUpLoop_done_props st ntk (fun t => t.1.Sorted (· ≤ ·))
        (fun s0 t s2 hmt => (mixedTicket_valid st hg s0 t s2 hmt).2)
        fuel (validateAndDeduplicate batch) s1 out
        (vdGo_sorted _ batch [] (strategyBatch_sorted st s batch s1 hb)
          (fun t ht => absurd ht (List.not_mem_nil t))) h
      have hnd : out.Nodup := hprops.2.2.1 (vdGo_nodup batch [] List.nodup_nil)
      constructor
      · refine hnd.imp_of_mem ?_
        intro a b ha hb2 hne hcanon
        apply hne
        have hca : canonTicket a = a := by
          unfold canonTicket
          rw [stableSort_asc_of_sorted a.1 (hprops.1 a ha)]
        have hcb : canonTicket b = b := by
          unfold canonTicket
          rw [stableSort_asc_of_sorted b.1 (hprops.1 b hb2)]
        rw [← hca, ← hcb, hcanon]
      · rcases hprops.2.2.2 with ⟨ext, hext⟩
        exact ⟨batch, s1, ext, rfl, hext⟩

/-- Witness for `C3_dedup_first_seen_canonical` on the concrete state. -/
theorem C3_witness : goodState exState ∧
    generateTickets exState 2 zeroSrc 0 = GenRes.done exOut ∧
    exOut.Pairwise (fun a b => canonTicket a ≠ canonTicket b) := by
  have hg : goodState exState := ⟨by decide, by decide⟩
  have hd : generateTickets exState 2 zeroSrc 0 = GenRes.done exOut := by decide
  exact ⟨hg, hd, (C3_dedup_first_seen_canonical.2 exState hg 2 zeroSrc 0 exOut hd).1⟩

theorem mem_allPairs (i j : ℕ) :
    (i, j) ∈ allPairs ↔ i ∈ regularRange ∧ j ∈ regularRange ∧ i < j := by
  unfold allPairs
  simp only [List.mem_bind, List.mem_map, List.mem_filter, decide_eq_true_eq]
  constructor
  · rintro ⟨a, ha, b, ⟨hb, hab⟩, heq⟩
    injection heq with h1 h2
    subst h1
    subst h2
    exact ⟨ha, hb, hab⟩
  · rintro ⟨hi, hj, hij⟩
    exact ⟨i, hi, j, ⟨hj, hij⟩, rfl⟩

theorem allPairs_nodup : allPairs.Nodup := by
  unfold allPairs
  rw [List.nodup_bind]
  constructor
  · intro i hi
    refine ((regularRange_nodup.filter _).map ?_)
    intro a b hab
    injection hab
  · refine regularRange_nodup.imp_of_mem ?_
    intro a b ha hb hne x hxa hxb
    rcases List.mem_map.mp hxa with ⟨j1, _, rfl⟩
    rcases List.mem_map.mp hxb with ⟨j2, _, heq⟩
    injection heq with h1 h2
    exact hne h1.symm

theorem initPairTable_keys : initPairTable.map Prod.fst = allPairs := by
  unfold initPairTable
  rw [List.map_map, show (Prod.fst ∘ fun p : ℕ × ℕ => (p, (0 : ℕ))) = id from rfl,
    List.map_id]

theorem initPairTable_sum : (initPairTable.map Prod.snd).sum = 0 := by
  unfold initPairTable
  rw [List.map_map, show (Prod.snd ∘ fun p : ℕ × ℕ => (p, (0 : ℕ))) =
    (fun _ => (0 : ℕ)) from rfl]
  simp

theorem bumpUpd_fst (k : ℕ × ℕ) (e : (ℕ × ℕ) × ℕ) : (bumpUpd k e).1 = e.1 := by
  unfold bumpUpd
  by_cases h : e.1 = k
  · rw [if_pos h]
  · rw [if_neg h]

theorem upd_keys (k : ℕ × ℕ) (t : List ((ℕ × ℕ) × ℕ)) :
    (t.map (bumpUpd k)).map Prod.fst = t.map Prod.fst := by
  rw [List.map_map]
  exact List.map_congr_left (fun e _ => bumpUpd_fst k e)

theorem upd_snd_of_not_mem (k : ℕ × ℕ) :
    ∀ t : List ((ℕ × ℕ) × ℕ), k ∉ t.map Prod.fst →
      (t.map (bumpUpd k)).map Prod.snd = t.map Prod.snd
  | [], _ => rfl
  | e :: rest, hk => by
    have hek : e.1 ≠ k := fun h => hk (by rw [List.map_cons, h]; exact List.mem_cons_self k _)
    have hrest : k ∉ rest.map Prod.fst := fun h => hk (by rw [List.map_cons]; exact List.mem_cons_of_mem _ h)
    simp only [List.map_cons]
    rw [upd_snd_of_not_mem k rest hrest]
    unfold bumpUpd
    rw [if_neg hek]

theorem upd_snd_sum (k : ℕ × ℕ) :
    ∀ t : List ((ℕ × ℕ) × ℕ), k ∈ t.map Prod.fst → (t.map Prod.fst).Nodup →
      ((t.map (bumpUpd k)).map Prod.snd).sum = (t.map Prod.snd).sum + 1
  | [], hk, _ => absurd hk (List.not_mem_nil k)
  | e :: rest, hk, hnd => by
    simp only [List.map_cons] at hnd ⊢
    rw [List.nodup_cons] at hnd
    by_cases hek : e.1 = k
    · have hrest : k ∉ rest.map Prod.fst := by rw [← hek]; exact hnd.1
      rw [upd_snd_of_not_mem k rest hrest]
      unfold bumpUpd
      rw [if_pos hek]
      simp only [List.sum_cons]
      omega
    · have hkrest : k ∈ rest.map Prod.fst := by
        rw [List.map_cons] at hk
        rcases List.mem_cons.mp hk with h | h
        · exact absurd h.symm hek
        · exact h
      rw [show bumpUpd k e = e from by unfold bumpUpd; rw [if_neg hek]]
      simp only [List.sum_cons]
      rw [upd_snd_sum k rest hkrest hnd.2]
      omega

theorem bumpPair_eq_some (k : ℕ × ℕ) (t : List ((ℕ × ℕ) × ℕ)) (hk : k ∈ t.map Prod.fst) :
    bumpPair k t = some (t.map (bumpUpd k)) := by
  unfold bumpPair
  rw [if_pos]
  rw [List.any_eq_true]
  rcases List.mem_map.mp hk with ⟨e, he, hfst⟩
  exact ⟨e, he, decide_eq_true hfst⟩

theorem bumpAll_props : ∀ (ps : List (ℕ × ℕ)) (t : List ((ℕ × ℕ) × ℕ)),
    t.map Prod.fst = allPairs → (∀ p ∈ ps, normPair p ∈ allPairs) →
    ∃ t2, bumpAll ps t = some t2 ∧ t2.map Prod.fst = allPairs ∧
      (t2.map Prod.snd).sum = (t.map Prod.snd).sum + ps.length
  | [], t, hkeys, _ => ⟨t, rfl, hkeys, by simp⟩
  | p :: ps, t, hkeys, hmem => by
    have hk : normPair p ∈ t.map Prod.fst := by
      rw [hkeys]
      exact hmem p (List.mem_cons_self p ps)
    have hnd : (t.map Prod.fst).Nodup := by rw [hkeys]; exact allPairs_nodup
    have hbump := bumpPair_eq_some (normPair p) t hk
    have hrec := bumpAll_props ps (t.map (bumpUpd (normPair p)))
      (by rw [upd_keys, hkeys]) (fun q hq => hmem q (List.mem_cons_of_mem p hq))
    rcases hrec with ⟨t2, h1, h2, h3⟩
    refine ⟨t2, ?_, h2, ?_⟩
    · unfold bumpAll
      rw [hbump]
      exact h1
    · rw [h3, upd_snd_sum (normPair p) t hk hnd]
      simp only [List.length_cons]
      omega

theorem combos2_mem : ∀ (l : List ℕ) (p : ℕ × ℕ), p ∈ combos2 l →
    p.1 ∈ l ∧ p.2 ∈ l ∧ (l.Nodup → p.1 ≠ p.2)
  | [], p, hp => absurd hp (List.not_mem_nil p)
  | x :: xs, p, hp => by
    unfold combos2 at hp
    rcases List.mem_append.mp hp with h1 | h2
    · rcases List.mem_map.mp h1 with ⟨y, hy, rfl⟩
      refine ⟨List.mem_cons_self x xs, List.mem_cons_of_mem x hy, fun hnd => ?_⟩
      rw [List.nodup_cons] at hnd
      intro heq
      have hxy : x = y := heq
      exact hnd.1 (hxy ▸ hy)
    · have := combos2_mem xs p h2
      refine ⟨List.mem_cons_of_mem x this.1, List.mem_cons_of_mem x this.2.1, fun hnd => ?_⟩
      rw [List.nodup_cons] at hnd
      exact this.2.2 hnd.2

theorem combos2_length : ∀ l : List ℕ, 2 * (combos2 l).length = l.length * (l.length - 1)
  | [] => rfl
  | x :: xs => by
    unfold combos2
    rw [List.length_append, List.length_map]
    have ih := combos2_length xs
    cases hn : xs.length with
    | zero =>
      rw [hn] at ih
      have hc : (combos2 xs).length = 0 := by omega
      simp only [List.length_cons, hn, hc]
    | succ m =>
      rw [hn] at ih
      simp only [List.length_cons, hn, Nat.succ_sub_one]
      have h2 : 2 * (m + 1 + (combos2 xs).length) = 2 * (m + 1) + 2 * (combos2 xs).length := by
        ring
      rw [h2, ih]
      have : m + 1 - 1 = m := rfl
      rw [this]
      ring

theorem normPair_mem_allPairs (p : ℕ × ℕ) (h1 : p.1 ∈ regularRange)
    (h2 : p.2 ∈ regularRange) (hne : p.1 ≠ p.2) : normPair p ∈ allPairs := by
  unfold normPair
  by_cases h : p.2 < p.1
  · rw [if_pos h]
    exact (mem_allPairs _ _).mpr ⟨h2, h1, h⟩
  · rw [if_neg h]
    have : p = (p.1, p.2) := rfl
    rw [this]
    exact (mem_allPairs _ _).mpr ⟨h1, h2, lt_of_le_of_ne (not_lt.mp h) hne⟩

theorem pairFold_props : ∀ (records : List DrawRecord) (t : List ((ℕ × ℕ) × ℕ)),
    t.map Prod.fst = allPairs →
    (∀ r ∈ records, r.regulars.length = 6 ∧ r.regulars.Nodup ∧
      ∀ x ∈ r.regulars, x ∈ regularRange) →
    ∃ t2, pairFold records t = some t2 ∧ t2.map Prod.fst = allPairs ∧
      (t2.map Prod.snd).sum = (t.map Prod.snd).sum + records.length * 15
  | [], t, hkeys, _ => ⟨t, rfl, hkeys, by simp⟩
  | r :: rs, t, hkeys, hval => by
    have hr := hval r (List.mem_cons_self r rs)
    have hmem : ∀ p ∈ combos2 r.regulars, normPair p ∈ allPairs := by
      intro p hp
      have hc := combos2_mem r.regulars p hp
      exact normPair_mem_allPairs p (hr.2.2 p.1 hc.1) (hr.2.2 p.2 hc.2.1) (hc.2.2 hr.2.1)
    have hlen : (combos2 r.regulars).length = 15 := by
      have := combos2_length r.regulars
      rw [hr.1] at this
      omega
    rcases bumpAll_props (combos2 r.regulars) t hkeys hmem with ⟨t1, hb1, hb2, hb3⟩
    rcases pairFold_props rs t1 hb2 (fun q hq => hval q (List.mem_cons_of_mem r hq))
      with ⟨t2, hf1, hf2, hf3⟩
    refine ⟨t2, ?_, hf2, ?_⟩
    · unfold pairFold
      rw [hb1]
      exact hf1
    · rw [hf3, hb3, hlen]
      simp only [List.length_cons]
      ring

/-- C6: after analysis of a window of `W` valid records, the pair-frequency
table has an entry for every unordered pair `(i, j)`, `i < j`, of in-range
regular numbers (zero-initialized, not just observed pairs), and the sum of all
its counts equals `W * C(6, 2) = W * 15`. -/
theorem C6_pair_table_complete (records : List DrawRecord)
    (hval : ∀ r ∈ records, r.regulars.length = 6 ∧ r.regulars.Nodup ∧
      ∀ x ∈ r.regulars, x ∈ regularRange) :
    ∃ t, analyzePairFrequency records = some t ∧
      t.map Prod.fst = allPairs ∧
      (∀ i j : ℕ, (i, j) ∈ allPairs ↔ i ∈ regularRange ∧ j ∈ regularRange ∧ i < j) ∧
      (t.map Prod.snd).sum = records.length * 15 := by
  rcases pairFold_props records initPairTable initPairTable_keys hval with ⟨t, h1, h2, h3⟩
  refine ⟨t, h1, h2, mem_allPairs, ?_⟩
  rw [h3, initPairTable_sum]
  omega

/-- Witness for `C6_pair_table_complete` on the one-draw history. -/
theorem C6_witness : (∀ r ∈ exHistory, r.regulars.length = 6 ∧ r.regulars.Nodup ∧
      ∀ x ∈ r.regulars, x ∈ regularRange) ∧
    ∃ t, analyzePairFrequency exHistory = some t ∧
      t.map Prod.fst = allPairs ∧
      (∀ i j : ℕ, (i, j) ∈ allPairs ↔ i ∈ regularRange ∧ j ∈ regularRange ∧ i < j) ∧
      (t.map Prod.snd).sum = exHistory.length * 15 := by
  have hval : ∀ r ∈ exHistory, r.regulars.length = 6 ∧ r.regulars.Nodup ∧
      ∀ x ∈ r.regulars, x ∈ regularRange := by decide
  exact ⟨hval, C6_pair_table_complete exHistory hval⟩

theorem le_maxFold : ∀ (l : List Wq) (acc : Wq), acc.toRat ≤ (maxFold acc l).toRat
  | [], _ => le_refl _
  | y :: ys, acc => by
    unfold maxFold
    by_cases h : Wq.blt acc y = true
    · rw [if_pos h]
      exact le_trans (le_of_lt ((Wq.blt_iff acc y).mp h)) (le_maxFold ys y)
    · rw [if_neg h]
      exact le_maxFold ys acc

theorem mem_le_maxFold : ∀ (l : List Wq) (acc y : Wq), y ∈ l →
    y.toRat ≤ (maxFold acc l).toRat
  | [], _, y, hy => absurd hy (List.not_mem_nil y)
  | z :: zs, acc, y, hy => by
    unfold maxFold
    rcases List.mem_cons.mp hy with rfl | hy2
    · by_cases h : Wq.blt acc y = true
      · rw [if_pos h]
        exact le_maxFold zs y
      · rw [if_neg h]
        exact le_trans ((Wq.blt_eq_false_iff acc y).mp (Bool.eq_false_iff.mpr h))
          (le_maxFold zs acc)
    · by_cases h : Wq.blt acc z = true
      · rw [if_pos h]
        exact mem_le_maxFold zs z y hy2
      · rw [if_neg h]
        exact mem_le_maxFold zs acc y hy2

theorem maxFold_mem : ∀ (l : List Wq) (acc : Wq), maxFold acc l = acc ∨ maxFold acc l ∈ l
  | [], acc => Or.inl rfl
  | y :: ys, acc => by
    unfold maxFold
    by_cases h : Wq.blt acc y = true
    · rw [if_pos h]
      rcases maxFold_mem ys y with h2 | h2
      · refine Or.inr ?_
        rw [h2]
        exact List.mem_cons_self y ys
      · exact Or.inr (List.mem_cons_of_mem y h2)
    · rw [if_neg h]
      rcases maxFold_mem ys acc with h2 | h2
      · exact Or.inl h2
      · exact Or.inr (List.mem_cons_of_mem y h2)

theorem listMaxW_ge (l : List Wq) (y : Wq) (hy : y ∈ l) : y.toRat ≤ (listMaxW l).toRat := by
  cases l with
  | nil => exact absurd hy (List.not_mem_nil y)
  | cons x xs =>
    unfold listMaxW
    rcases List.mem_cons.mp hy with rfl | hy2
    · exact le_maxFold xs y
    · exact mem_le_maxFold xs x y hy2

theorem listMaxW_mem : ∀ l : List Wq, l ≠ [] → listMaxW l ∈ l
  | [], h => absurd rfl h
  | x :: xs, _ => by
    rcases maxFold_mem xs x with h | h
    · show maxFold x xs ∈ x :: xs
      rw [h]
      exact List.mem_cons_self x xs
    · show maxFold x xs ∈ x :: xs
      exact List.mem_cons_of_mem x h

theorem foldr_max_ge : ∀ (l : List ℕ) (y : ℕ), y ∈ l → y ≤ l.foldr max 0
  | [], y, hy => absurd hy (List.not_mem_nil y)
  | x :: xs, y, hy => by
    rw [List.foldr_cons]
    rcases List.mem_cons.mp hy with rfl | hy2
    · exact le_max_left _ _
    · exact le_trans (foldr_max_ge xs y hy2) (le_max_right _ _)

theorem foldr_max_mem : ∀ l : List ℕ, l.foldr max 0 = 0 ∨ l.foldr max 0 ∈ l
  | [] => Or.inl rfl
  | x :: xs => by
    rw [List.foldr_cons]
    rcases le_total (xs.foldr max 0) x with h | h
    · rw [max_eq_left h]
      exact Or.inr (List.mem_cons_self x xs)
    · rw [max_eq_right h]
      rcases foldr_max_mem xs with h2 | h2
      · rw [h2]
        rw [h2] at h
        rw [Nat.le_zero.mp h]
        exact Or.inr (List.mem_cons_self 0 xs)
      · exact Or.inr (List.mem_cons_of_mem x h2)

theorem regularMaxFreq_pos (records : List DrawRecord) : 1 ≤ regularMaxFreq records := by
  unfold regularMaxFreq
  by_cases h : regularPool records = []
  · rw [if_pos h]
  · rw [if_neg h]
    rcases List.exists_mem_of_ne_nil _ h with ⟨p, hp⟩
    have hcount : 1 ≤ (regularPool records).count p := List.count_pos_iff_mem.mpr hp
    exact le_trans hcount (foldr_max_ge _ _ (List.mem_map_of_mem _ hp))

theorem regularCount_le_max (records : List DrawRecord) (x : ℕ) :
    regularCount records x ≤ regularMaxFreq records := by
  by_cases hc : regularCount records x = 0
  · rw [hc]
    exact le_trans (Nat.zero_le 1) (regularMaxFreq_pos records)
  · have hmem : x ∈ regularPool records := by
      by_contra hnm
      exact hc (List.count_eq_zero_of_not_mem hnm)
    have hne : regularPool records ≠ [] := List.ne_nil_of_mem hmem
    unfold regularMaxFreq
    rw [if_neg hne]
    exact foldr_max_ge _ _ (List.mem_map_of_mem _ hmem)

theorem regularMaxFreq_attained (records : List DrawRecord)
    (hne : regularPool records ≠ []) :
    ∃ m ∈ regularPool records, regularCount records m = regularMaxFreq records := by
  have h1 := regularMaxFreq_pos records
  unfold regularMaxFreq at h1 ⊢
  rw [if_neg hne] at h1 ⊢
  rcases foldr_max_mem ((regularPool records).map
      (fun x => (regularPool records).count x)) with h2 | h2
  · omega
  · rcases List.mem_map.mp h2 with ⟨m, hm, hcount⟩
    exact ⟨m, hm, hcount⟩

theorem recencyWeight_nonneg (w : ℕ → Wq) (records : List DrawRecord) (x : ℕ)
    (hw : ∀ i, 0 ≤ (w i).toRat) : 0 ≤ (recencyWeight w records x).toRat := by
  unfold recencyWeight
  rw [Wq.toRat_lsum]
  apply List.sum_nonneg
  intro q hq
  rw [List.map_map] at hq
  rcases List.mem_map.mp hq with ⟨e, he, rfl⟩
  simp only [Function.comp_apply, Wq.toRat_mul, Wq.toRat_ofNat]
  exact mul_nonneg (hw e.1) (Nat.cast_nonneg _)

theorem recencyWeight_head_pos (w : ℕ → Wq) (r0 : DrawRecord) (rest : List DrawRecord)
    (x : ℕ) (hx : x ∈ r0.regulars) (hw : ∀ i, 0 < (w i).toRat) :
    0 < (recencyWeight w (r0 :: rest) x).toRat := by
  unfold recencyWeight
  rw [List.enum_cons]
  simp only [List.map_cons]
  unfold Wq.lsum
  rw [Wq.toRat_add]
  have h1 : 0 < (Wq.mul (w 0) (Wq.ofNat (r0.regulars.count x))).toRat := by
    rw [Wq.toRat_mul, Wq.toRat_ofNat]
    apply mul_pos (hw 0)
    have : 1 ≤ r0.regulars.count x := List.count_pos_iff_mem.mpr hx
    exact_mod_cast Nat.lt_of_lt_of_le Nat.zero_lt_one this
  have h2 : 0 ≤ (Wq.lsum ((List.enumFrom 1 rest).map
      (fun p => Wq.mul (w p.1) (Wq.ofNat (p.2.regulars.count x))))).toRat := by
    rw [Wq.toRat_lsum]
    apply List.sum_nonneg
    intro q hq
    rw [List.map_map] at hq
    rcases List.mem_map.mp hq with ⟨e, he, rfl⟩
    simp only [Function.comp_apply, Wq.toRat_mul, Wq.toRat_ofNat]
    exact mul_nonneg (le_of_lt (hw e.1)) (Nat.cast_nonneg _)
  linarith

theorem mapO_all_some (f : ℕ → Option (ℕ × Wq)) :
    ∀ l : List ℕ, (∀ x ∈ l, (f x).isSome = true) →
      ∃ out, mapO f l = some out ∧ ∀ p ∈ out, ∃ x ∈ l, f x = some p
  | [], _ => ⟨[], rfl, fun p hp => absurd hp (List.not_mem_nil p)⟩
  | x :: xs, hall => by
    cases hf : f x with
    | none =>
      have := hall x (List.mem_cons_self x xs)
      rw [hf] at this
      exact absurd this (by simp)
    | some y =>
      rcases mapO_all_some f xs (fun z hz => hall z (List.mem_cons_of_mem x hz))
        with ⟨out, h1, h2⟩
      refine ⟨y :: out, ?_, ?_⟩
      · unfold mapO
        rw [hf, h1]
      · intro p hp
        rcases List.mem_cons.mp hp with rfl | hp2
        · exact ⟨x, List.mem_cons_self x xs, hf⟩
        · rcases h2 p hp2 with ⟨z, hz, hfz⟩
          exact ⟨z, List.mem_cons_of_mem x hz, hfz⟩

theorem Wq.div_isSome (a b : Wq) (h : b.n ≠ 0) : ∃ c, Wq.div a b = some c := by
  unfold Wq.div
  rw [if_neg h]
  exact ⟨_, rfl⟩

theorem blend_toRat (nf nr : Wq) :
    (Wq.add (Wq.mul ⟨6, 9⟩ nf) (Wq.mul ⟨4, 9⟩ nr)).toRat =
      (3 / 5) * nf.toRat + (2 / 5) * nr.toRat := by
  rw [Wq.toRat_add, Wq.toRat_mul, Wq.toRat_mul]
  have h6 : (⟨6, 9⟩ : Wq).toRat = 3 / 5 := by
    unfold Wq.toRat
    norm_num
  have h4 : (⟨4, 9⟩ : Wq).toRat = 2 / 5 := by
    unfold Wq.toRat
    norm_num
  rw [h6, h4]

theorem blend_bounds (nf nr : Wq) (h1 : 0 ≤ nf.toRat) (h2 : nf.toRat ≤ 1)
    (h3 : 0 ≤ nr.toRat) (h4 : nr.toRat ≤ 1) :
    0 ≤ (Wq.add (Wq.mul ⟨6, 9⟩ nf) (Wq.mul ⟨4, 9⟩ nr)).toRat ∧
    (Wq.add (Wq.mul ⟨6, 9⟩ nf) (Wq.mul ⟨4, 9⟩ nr)).toRat ≤ 1 := by
  rw [blend_toRat]
  constructor
  · positivity
  · nlinarith

theorem specialMaxFreq_pos (records : List DrawRecord) : 1 ≤ specialMaxFreq records := by
  unfold specialMaxFreq
  by_cases h : specialPool records = []
  · rw [if_pos h]
  · rw [if_neg h]
    rcases List.exists_mem_of_ne_nil _ h with ⟨p, hp⟩
    have hcount : 1 ≤ (specialPool records).count p := List.count_pos_iff_mem.mpr hp
    exact le_trans hcount (foldr_max_ge _ _ (List.mem_map_of_mem _ hp))

theorem specialCount_le_max (records : List DrawRecord) (x : ℕ) :
    specialCount records x ≤ specialMaxFreq records := by
  by_cases hc : specialCount records x = 0
  · rw [hc]
    exact le_trans (Nat.zero_le 1) (specialMaxFreq_pos records)
  · have hmem : x ∈ specialPool records := by
      by_contra hnm
      exact hc (List.count_eq_zero_of_not_mem hnm)
    have hne : specialPool records ≠ [] := List.ne_nil_of_mem hmem
    unfold specialMaxFreq
    rw [if_neg hne]
    exact foldr_max_ge _ _ (List.mem_map_of_mem _ hmem)

theorem specialMaxFreq_attained (records : List DrawRecord)
    (hne : specialPool records ≠ []) :
    ∃ m ∈ specialPool records, specialCount records m = specialMaxFreq records := by
  have h1 := specialMaxFreq_pos records
  unfold specialMaxFreq at h1 ⊢
  rw [if_neg hne] at h1 ⊢
  rcases foldr_max_mem ((specialPool records).map
      (fun x => (specialPool records).count x)) with h2 | h2
  · omega
  · rcases List.mem_map.mp h2 with ⟨m, hm, hcount⟩
    exact ⟨m, hm, hcount⟩

theorem specialRecencyWeight_nonneg (w : ℕ → Wq) (records : List DrawRecord) (x : ℕ)
    (hw : ∀ i, 0 ≤ (w i).toRat) : 0 ≤ (specialRecencyWeight w records x).toRat := by
  unfold specialRecencyWeight
  rw [Wq.toRat_lsum]
  apply List.sum_nonneg
  intro q hq
  rw [List.map_map] at hq
  rcases List.mem_map.mp hq with ⟨e, he, rfl⟩
  simp only [Function.comp_apply, Wq.toRat_mul, Wq.toRat_ofNat]
  refine mul_nonneg (hw e.1) ?_
  by_cases h : e.2.special = x
  · rw [if_pos h]
    norm_num
  · rw [if_neg h]
    norm_num

theorem specialRecencyWeight_head_pos (w : ℕ → Wq) (r0 : DrawRecord)
    (rest : List DrawRecord) (hw : ∀ i, 0 < (w i).toRat) :
    0 < (specialRecencyWeight w (r0 :: rest) r0.special).toRat := by
  unfold specialRecencyWeight
  rw [List.enum_cons]
  simp only [List.map_cons]
  unfold Wq.lsum
  rw [Wq.toRat_add]
  have h1 : 0 < (Wq.mul (w 0) (Wq.ofNat 1)).toRat := by
    rw [Wq.toRat_mul, Wq.toRat_ofNat]
    have := hw 0
    norm_num
    exact this
  have h2 : 0 ≤ (Wq.lsum ((List.enumFrom 1 rest).map
      (fun p => Wq.mul (w p.1) (Wq.ofNat (if p.2.special = r0.special then 1 else 0))))).toRat := by
    rw [Wq.toRat_lsum]
    apply List.sum_nonneg
    intro q hq
    rw [List.map_map] at hq
    rcases List.mem_map.mp hq with ⟨e, he, rfl⟩
    simp only [Function.comp_apply, Wq.toRat_mul, Wq.toRat_ofNat]
    refine mul_nonneg (le_of_lt (hw e.1)) ?_
    by_cases h : e.2.special = r0.special
    · rw [if_pos h]
      norm_num
    · rw [if_neg h]
      norm_num
  simp only [eq_self_iff_true, if_true]
  linarith

theorem analyzeRegular_props (w : ℕ → Wq) (r0 : DrawRecord) (rest : List DrawRecord)
    (hval : ∀ r ∈ r0 :: rest, r.regulars.length = 6 ∧ r.regulars.Nodup ∧
      ∀ x ∈ r.regulars, x ∈ regularRange)
    (hw : ∀ i, 0 < (w i).toRat) :
    ∃ tbl, analyzeRegularNumbers w (r0 :: rest) = some tbl ∧
      (∀ p ∈ tbl, 0 ≤ p.2.toRat ∧ p.2.toRat ≤ 1) ∧
      (∀ x : ℕ, ((regularCount (r0 :: rest) x : ℚ) /
        (regularMaxFreq (r0 :: rest) : ℚ)) ≤ 1) ∧
      (∃ x ∈ regularRange, ((regularCount (r0 :: rest) x : ℚ) /
        (regularMaxFreq (r0 :: rest) : ℚ)) = 1) ∧
      (∀ x ∈ regularRange, (recencyWeight w (r0 :: rest) x).toRat /
        (listMaxW (regularRange.map (recencyWeight w (r0 :: rest)))).toRat ≤ 1) ∧
      (∃ x ∈ regularRange, (recencyWeight w (r0 :: rest) x).toRat /
        (listMaxW (regularRange.map (recencyWeight w (r0 :: rest)))).toRat = 1) := by
  have hval0 := hval r0 (List.mem_cons_self r0 rest)
  have hpoolne : regularPool (r0 :: rest) ≠ [] := by
    intro hp
    unfold regularPool at hp
    rw [List.map_cons] at hp
    have h6 := hval0.1
    cases hreg : r0.regulars with
    | nil => rw [hreg] at h6; simp at h6
    | cons a l =>
      rw [hreg] at hp
      simp at hp
  have hMpos := regularMaxFreq_pos (r0 :: rest)
  have hMQ : (0 : ℚ) < ((regularMaxFreq (r0 :: rest) : ℕ) : ℚ) := by
    exact_mod_cast Nat.lt_of_lt_of_le Nat.zero_lt_one hMpos
  obtain ⟨x0, hx0⟩ : ∃ x0, x0 ∈ r0.regulars := by
    refine List.exists_mem_of_ne_nil r0.regulars ?_
    intro h
    have h6 := hval0.1
    rw [h] at h6
    simp at h6
  have hx0r : x0 ∈ regularRange := hval0.2.2 x0 hx0
  have hRpos : 0 < (listMaxW (regularRange.map (recencyWeight w (r0 :: rest)))).toRat :=
    lt_of_lt_of_le (recencyWeight_head_pos w r0 rest x0 hx0 hw)
      (listMaxW_ge _ _ (List.mem_map_of_mem _ hx0r))
  have hRne : (listMaxW (regularRange.map (recencyWeight w (r0 :: rest)))).n ≠ 0 := by
    intro h0
    exact absurd ((Wq.zero_iff_n _).mpr h0) (ne_of_gt hRpos)
  have hMn : (Wq.ofNat (regularMaxFreq (r0 :: rest))).n ≠ 0 := by
    unfold Wq.ofNat
    simp only [ne_eq, Nat.cast_eq_zero]
    omega
  have hentry : ∀ x ∈ regularRange, (regularEntry w (r0 :: rest) x).isSome = true := by
    intro x hx
    unfold regularEntry
    rcases Wq.div_isSome (Wq.ofNat (regularCount (r0 :: rest) x))
      (Wq.ofNat (regularMaxFreq (r0 :: rest))) hMn with ⟨nf, hnf⟩
    rcases Wq.div_isSome (recencyWeight w (r0 :: rest) x)
      (listMaxW (regularRange.map (recencyWeight w (r0 :: rest)))) hRne with ⟨nr, hnr⟩
    rw [hnf, hnr]
    rfl
  rcases mapO_all_some _ regularRange hentry with ⟨tbl, htbl, hmem⟩
  refine ⟨tbl, htbl, ?_, ?_, ?_, ?_, ?_⟩
  · intro p hp
    rcases hmem p hp with ⟨x, hx, hfx⟩
    unfold regularEntry at hfx
    cases hd1 : Wq.div (Wq.ofNat (regularCount (r0 :: rest) x))
        (Wq.ofNat (regularMaxFreq (r0 :: rest))) with
    | none => rw [hd1] at hfx; simp at hfx
    | some nf =>
      rw [hd1] at hfx
      cases hd2 : Wq.div (recencyWeight w (r0 :: rest) x)
          (listMaxW (regularRange.map (recencyWeight w (r0 :: rest)))) with
      | none => rw [hd2] at hfx; simp at hfx
      | some nr =>
        rw [hd2] at hfx
        simp only [Option.some.injEq] at hfx
        rw [← hfx]
        have hnfval : nf.toRat = ((regularCount (r0 :: rest) x : ℕ) : ℚ) /
            ((regularMaxFreq (r0 :: rest) : ℕ) : ℚ) := by
          rw [Wq.toRat_div _ _ _ hd1, Wq.toRat_ofNat, Wq.toRat_ofNat]
        have hnrval : nr.toRat = (recencyWeight w (r0 :: rest) x).toRat /
            (listMaxW (regularRange.map (recencyWeight w (r0 :: rest)))).toRat :=
          Wq.toRat_div _ _ _ hd2
        have hnf1 : 0 ≤ nf.toRat := by
          rw [hnfval]
          positivity
        have hnf2 : nf.toRat ≤ 1 := by
          rw [hnfval, div_le_one hMQ]
          exact_mod_cast regularCount_le_max (r0 :: rest) x
        have hnr1 : 0 ≤ nr.toRat := by
          rw [hnrval]
          exact div_nonneg (recencyWeight_nonneg w _ x (fun i => le_of_lt (hw i)))
            (le_of_lt hRpos)
        have hnr2 : nr.toRat ≤ 1 := by
          rw [hnrval, div_le_one hRpos]
          exact listMaxW_ge _ _ (List.mem_map_of_mem _ hx)
        exact blend_bounds nf nr hnf1 hnf2 hnr1 hnr2
  · intro x
    rw [div_le_one hMQ]
    exact_mod_cast regularCount_le_max (r0 :: rest) x
  · rcases regularMaxFreq_attained (r0 :: rest) hpoolne with ⟨m, hm, hcount⟩
    have hmr : m ∈ regularRange := by
      unfold regularPool at hm
      rcases List.mem_join.mp hm with ⟨l, hl, hml⟩
      rcases List.mem_map.mp hl with ⟨r, hr, rfl⟩
      exact (hval r hr).2.2 m hml
    refine ⟨m, hmr, ?_⟩
    rw [hcount]
    exact div_self (ne_of_gt hMQ)
  · intro x hx
    rw [div_le_one hRpos]
    exact listMaxW_ge _ _ (List.mem_map_of_mem _ hx)
  · have hmapne : regularRange.map (recencyWeight w (r0 :: rest)) ≠ [] := by
      intro h
      have hlen := congrArg List.length h
      rw [List.length_map] at hlen
      simp at hlen
      exact absurd hlen (by decide)
    rcases List.mem_map.mp (listMaxW_mem _ hmapne) with ⟨x, hx, heq⟩
    refine ⟨x, hx, ?_⟩
    rw [heq]
    exact div_self (ne_of_gt hRpos)

theorem analyzeSpecial_props (w : ℕ → Wq) (r0 : DrawRecord) (rest : List DrawRecord)
    (hvalsp : ∀ r ∈ r0 :: rest, r.special ∈ specialRange)
    (hw : ∀ i, 0 < (w i).toRat) :
    ∃ tbl, analyzeSpecialNumbers w (r0 :: rest) = some tbl ∧
      (∀ p ∈ tbl, 0 ≤ p.2.toRat ∧ p.2.toRat ≤ 1) ∧
      (∀ x : ℕ, ((specialCount (r0 :: rest) x : ℚ) /
        (specialMaxFreq (r0 :: rest) : ℚ)) ≤ 1) ∧
      (∃ x ∈ specialRange, ((specialCount (r0 :: rest) x : ℚ) /
        (specialMaxFreq (r0 :: rest) : ℚ)) = 1) ∧
      (∀ x ∈ specialRange, (specialRecencyWeight w (r0 :: rest) x).toRat /
        (listMaxW (specialRange.map (specialRecencyWeight w (r0 :: rest)))).toRat ≤ 1) ∧
      (∃ x ∈ specialRange, (specialRecencyWeight w (r0 :: rest) x).toRat /
        (listMaxW (specialRange.map (specialRecencyWeight w (r0 :: rest)))).toRat = 1) := by
  have hMpos := specialMaxFreq_pos (r0 :: rest)
  have hMQ : (0 : ℚ) < ((specialMaxFreq (r0 :: rest) : ℕ) : ℚ) := by
    exact_mod_cast Nat.lt_of_lt_of_le Nat.zero_lt_one hMpos
  have hx0r : r0.special ∈ specialRange := hvalsp r0 (List.mem_cons_self r0 rest)
  have hRpos : 0 < (listMaxW (specialRange.map (specialRecencyWeight w (r0 :: rest)))).toRat :=
    lt_of_lt_of_le (specialRecencyWeight_head_pos w r0 rest hw)
      (listMaxW_ge _ _ (List.mem_map_of_mem _ hx0r))
  have hRne : (listMaxW (specialRange.map (specialRecencyWeight w (r0 :: rest)))).n ≠ 0 := by
    intro h0
    exact absurd ((Wq.zero_iff_n _).mpr h0) (ne_of_gt hRpos)
  have hMn : (Wq.ofNat (specialMaxFreq (r0 :: rest))).n ≠ 0 := by
    unfold Wq.ofNat
    simp only [ne_eq, Nat.cast_eq_zero]
    omega
  have hentry : ∀ x ∈ specialRange, (specialEntry w (r0 :: rest) x).isSome = true := by
    intro x hx
    unfold specialEntry
    rcases Wq.div_isSome (Wq.ofNat (specialCount (r0 :: rest) x))
      (Wq.ofNat (specialMaxFreq (r0 :: rest))) hMn with ⟨nf, hnf⟩
    rcases Wq.div_isSome (specialRecencyWeight w (r0 :: rest) x)
      (listMaxW (specialRange.map (specialRecencyWeight w (r0 :: rest)))) hRne with ⟨nr, hnr⟩
    rw [hnf, hnr]
    rfl
  rcases mapO_all_some _ specialRange hentry with ⟨tbl, htbl, hmem⟩
  refine ⟨tbl, htbl, ?_, ?_, ?_, ?_, ?_⟩
  · intro p hp
    rcases hmem p hp with ⟨x, hx, hfx⟩
    unfold specialEntry at hfx
    cases hd1 : Wq.div (Wq.ofNat (specialCount (r0 :: rest) x))
        (Wq.ofNat (specialMaxFreq (r0 :: rest))) with
    | none => rw [hd1] at hfx; simp at hfx
    | some nf =>
      rw [hd1] at hfx
      cases hd2 : Wq.div (specialRecencyWeight w (r0 :: rest) x)
          (listMaxW (specialRange.map (specialRecencyWeight w (r0 :: rest)))) with
      | none => rw [hd2] at hfx; simp at hfx
      | some nr =>
        rw [hd2] at hfx
        simp only [Option.some.injEq] at hfx
        rw [← hfx]
        have hnfval : nf.toRat = ((specialCount (r0 :: rest) x : ℕ) : ℚ) /
            ((specialMaxFreq (r0 :: rest) : ℕ) : ℚ) := by
          rw [Wq.toRat_div _ _ _ hd1, Wq.toRat_ofNat, Wq.toRat_ofNat]
        have hnrval : nr.toRat = (specialRecencyWeight w (r0 :: rest) x).toRat /
            (listMaxW (specialRange.map (specialRecencyWeight w (r0 :: rest)))).toRat :=
          Wq.toRat_div _ _ _ hd2
        have hnf1 : 0 ≤ nf.toRat := by
          rw [hnfval]
          positivity
        have hnf2 : nf.toRat ≤ 1 := by
          rw [hnfval, div_le_one hMQ]
          exact_mod_cast specialCount_le_max (r0 :: rest) x
        have hnr1 : 0 ≤ nr.toRat := by
          rw [hnrval]
          exact div_nonneg (specialRecencyWeight_nonneg w _ x (fun i => le_of_lt (hw i)))
            (le_of_lt hRpos)
        have hnr2 : nr.toRat ≤ 1 := by
          rw [hnrval, div_le_one hRpos]
          exact listMaxW_ge _ _ (List.mem_map_of_mem _ hx)
        exact blend_bounds nf nr hnf1 hnf2 hnr1 hnr2
  · intro x
    rw [div_le_one hMQ]
    exact_mod_cast specialCount_le_max (r0 :: rest) x
  · have hpoolne : specialPool (r0 :: rest) ≠ [] := by
      unfold specialPool
      simp
    rcases specialMaxFreq_attained (r0 :: rest) hpoolne with ⟨m, hm, hcount⟩
    have hmr : m ∈ specialRange := by
      unfold specialPool at hm
      rcases List.mem_map.mp hm with ⟨r, hr, rfl⟩
      exact hvalsp r hr
    refine ⟨m, hmr, ?_⟩
    rw [hcount]
    exact div_self (ne_of_gt hMQ)
  · intro x hx
    rw [div_le_one hRpos]
    exact listMaxW_ge _ _ (List.mem_map_of_mem _ hx)
  · have hmapne : specialRange.map (specialRecencyWeight w (r0 :: rest)) ≠ [] := by
      intro h
      have hlen := congrArg List.length h
      rw [List.length_map] at hlen
      simp at hlen
      exact absurd hlen (by decide)
    rcases List.mem_map.mp (listMaxW_mem _ hmapne) with ⟨x, hx, heq⟩
    refine ⟨x, hx, ?_⟩
    rw [heq]
    exact div_self (ne_of_gt hRpos)

/-- C7: every blended score `0.6 * norm_freq + 0.4 * norm_recency` lies in
`[0, 1]` for both the regular and the special pool, and on a non-empty window
(written `r0 :: rest`) each normalized component is at most `1` everywhere and
attains exactly `1` somewhere in its pool — the maximum normalized frequency
and the maximum normalized recency are each exactly `1`. -/
theorem C7_scores_unit_interval (w ws2 : ℕ → Wq) (r0 : DrawRecord) (rest : List DrawRecord)
    (hval : ∀ r ∈ r0 :: rest, r.regulars.length = 6 ∧ r.regulars.Nodup ∧
      ∀ x ∈ r.regulars, x ∈ regularRange)
    (hvalsp : ∀ r ∈ r0 :: rest, r.special ∈ specialRange)
    (hw : ∀ i, 0 < (w i).toRat) (hw2 : ∀ i, 0 < (ws2 i).toRat) :
    (∃ tbl, analyzeRegularNumbers w (r0 :: rest) = some tbl ∧
      (∀ p ∈ tbl, 0 ≤ p.2.toRat ∧ p.2.toRat ≤ 1) ∧
      (∀ x : ℕ, ((regularCount (r0 :: rest) x : ℚ) /
        (regularMaxFreq (r0 :: rest) : ℚ)) ≤ 1) ∧
      (∃ x ∈ regularRange, ((regularCount (r0 :: rest) x : ℚ) /
        (regularMaxFreq (r0 :: rest) : ℚ)) = 1) ∧
      (∀ x ∈ regularRange, (recencyWeight w (r0 :: rest) x).toRat /
        (listMaxW (regularRange.map (recencyWeight w (r0 :: rest)))).toRat ≤ 1) ∧
      (∃ x ∈ regularRange, (recencyWeight w (r0 :: rest) x).toRat /
        (listMaxW (regularRange.map (recencyWeight w (r0 :: rest)))).toRat = 1)) ∧
    (∃ tbl, analyzeSpecialNumbers ws2 (r0 :: rest) = some tbl ∧
      (∀ p ∈ tbl, 0 ≤ p.2.toRat ∧ p.2.toRat ≤ 1) ∧
      (∀ x : ℕ, ((specialCount (r0 :: rest) x : ℚ) /
        (specialMaxFreq (r0 :: rest) : ℚ)) ≤ 1) ∧
      (∃ x ∈ specialRange, ((specialCount (r0 :: rest) x : ℚ) /
        (specialMaxFreq (r0 :: rest) : ℚ)) = 1) ∧
      (∀ x ∈ specialRange, (specialRecencyWeight ws2 (r0 :: rest) x).toRat /
        (listMaxW (specialRange.map (specialRecencyWeight ws2 (r0 :: rest)))).toRat ≤ 1) ∧
      (∃ x ∈ specialRange, (specialRecencyWeight ws2 (r0 :: rest) x).toRat /
        (listMaxW (specialRange.map (specialRecencyWeight ws2 (r0 :: rest)))).toRat = 1)) :=
  ⟨analyzeRegular_props w r0 rest hval hw, analyzeSpecial_props ws2 r0 rest hvalsp hw2⟩

/-- Witness for `C7_scores_unit_interval` on the concrete one-draw window. -/
theorem C7_witness : (∀ i, 0 < (wOne i).toRat) ∧
    (∃ tbl, analyzeRegularNumbers wOne [⟨[1, 2, 3, 4, 5, 6], 1⟩] = some tbl ∧
      ∀ p ∈ tbl, 0 ≤ p.2.toRat ∧ p.2.toRat ≤ 1) := by
  have hw : ∀ i, 0 < (wOne i).toRat := by
    intro i
    rw [show wOne i = Wq.one from rfl, Wq.toRat_one]
    norm_num
  have h := C7_scores_unit_interval wOne wOne ⟨[1, 2, 3, 4, 5, 6], 1⟩ []
    (by decide) (by decide) hw hw
  rcases h.1 with ⟨tbl, h1, h2, _⟩
  exact ⟨hw, tbl, h1, h2⟩
